import Mathlib

/-!
go6502: debugger host and assembler output.

A shallow embedding of `debugger/debugger.go` (the binary artifact written by
`onAssemble`, the loader `load`/`onLoad`, the argument parsers `parseAddr` and
`parseByte`, the command-line splitter `splitArgs`) and of the assembler
behaviour exercised by `asm/asm_test.go`.

Conventions used throughout:

* a Go `byte` is a `Fin 256`; a Go `[]byte` is a `List Byte`;
* a Go `string` is a `List Char`, every character standing for one byte of the
  string (the parsers only ever look at ASCII bytes);
* a Go `int` is an `Int`; the one addition that could leave the range of a
  64-bit `int` (`origin+len(code)` in `load`) is wrapped explicitly;
* the file system, the memory of the emulated machine and the `asm` package
  are collaborators that are not part of `debugger.go`; they enter the
  definitions as the fields of `Env`.
-/

namespace Go6502

/-! ## Basic types -/

/-- One Go `byte`. -/
abbrev Byte := Fin 256

/-- The Go conversion `byte(x)` of a non-negative integer: the low 8 bits. -/
def byte (x : Nat) : Byte := ⟨x % 256, Nat.mod_lt x (by decide)⟩

/-- The Go conversion `[]byte(s)` of a string whose characters are bytes. -/
def bytesOf (s : List Char) : List Byte := s.map fun c => byte c.toNat

/-- The Go conversion `uint16(x)` of an `int`: the low 16 bits, two's complement. -/
def uint16 (x : Int) : Nat := (x % 65536).toNat

/-- Wrap-around of a mathematical integer into the range of a 64-bit Go `int`. -/
def wrapInt (x : Int) : Int := (x + 2 ^ 63) % 2 ^ 64 - 2 ^ 63

/-- The package-level variable `signature` of `debugger.go` (line 21). -/
def signature : List Char := ['5', '6', 'o', 'g']

/-- An entry `asm.Export` of a source map: a label and its 16-bit address. -/
structure Export where
  Label : List Char
  Addr : Nat
deriving DecidableEq, Repr

/-- The type `asm.SourceMap`, as far as the debugger reads it. -/
structure SourceMap where
  Exports : List Export
deriving DecidableEq, Repr

/-- The value `asm.Assemble` returns on success. -/
structure Result where
  Origin : Nat
  Code : List Byte
  SourceMap : SourceMap
deriving DecidableEq, Repr

/-! ## `startsWith` and the Go library function `strconv.ParseInt` -/

/-- The helper `startsWith` (debugger.go, lines 709-714). -/
def startsWith (s m : List Char) : Bool :=
  if s.length < m.length then false
  else s.take m.length == m

/-- The two kinds of error `strconv` reports for a numeral. -/
inductive NumError where
  | ErrSyntax
  | ErrRange
deriving DecidableEq, Repr

/-- The digit decoding inside `strconv.ParseUint`: `0-9`, `a-z`, `A-Z`. -/
def digitVal (c : Char) : Option Nat :=
  if '0'.toNat ≤ c.toNat ∧ c.toNat ≤ '9'.toNat then some (c.toNat - '0'.toNat)
  else if 'a'.toNat ≤ c.toNat ∧ c.toNat ≤ 'z'.toNat then some (c.toNat - 'a'.toNat + 10)
  else if 'A'.toNat ≤ c.toNat ∧ c.toNat ≤ 'Z'.toNat then some (c.toNat - 'A'.toNat + 10)
  else none

/-- The digit loop of `strconv.ParseUint` for an explicit base (no underscores,
no base prefix): `n` is the value accumulated so far, `cutoff` the smallest
number with `cutoff*base > maxUint64`, `maxVal = 2^bitSize - 1`. -/
def ParseUint.loop (base cutoff maxVal : Nat) : List Char → Nat → Nat × Option NumError
  | [], n => (n, none)
  | c :: cs, n =>
    match digitVal c with
    | none => (0, some NumError.ErrSyntax)
    | some d =>
      if d ≥ base then (0, some NumError.ErrSyntax)
      else if n ≥ cutoff then (maxVal, some NumError.ErrRange)
      else
        let n1 := n * base + d
        if n1 ≥ 2 ^ 64 ∨ n1 > maxVal then (maxVal, some NumError.ErrRange)
        else ParseUint.loop base cutoff maxVal cs n1

/-- The Go function `strconv.ParseUint(s, base, bitSize)` for `2 ≤ base ≤ 36` and
`1 ≤ bitSize ≤ 64`: the value and the error (`none` is Go's `nil`). -/
def ParseUint (s : List Char) (base bitSize : Nat) : Nat × Option NumError :=
  if s = [] then (0, some NumError.ErrSyntax)
  else ParseUint.loop base ((2 ^ 64 - 1) / base + 1) (2 ^ bitSize - 1) s 0

/-- The Go function `strconv.ParseInt(s, base, bitSize)`, same ranges. -/
def ParseInt (s : List Char) (base bitSize : Nat) : Int × Option NumError :=
  match s with
  | [] => (0, some NumError.ErrSyntax)
  | c :: cs =>
    let neg : Bool := c == '-'
    let s1 := if c == '+' then cs else if c == '-' then cs else c :: cs
    let (un, err) := ParseUint s1 base bitSize
    if err = some NumError.ErrSyntax then (0, err)
    else
      let cutoff : Nat := 2 ^ (bitSize - 1)
      if !neg ∧ un ≥ cutoff then (((cutoff : Int) - 1), some NumError.ErrRange)
      else if neg ∧ un > cutoff then (-(cutoff : Int), some NumError.ErrRange)
      else if neg then (-(un : Int), none) else ((un : Int), none)

/-! ## The argument parsers of the debugger -/

/-- The method `(*host).parseAddr` (debugger.go, lines 570-590); the receiver is
read only through `h.sourceMap`. -/
def parseAddr (sourceMap : SourceMap) (s : List Char) : Int :=
  match sourceMap.Exports.find? (fun e => e.Label == s) with
  | some e => (e.Addr : Int)
  | none =>
    let sb : List Char × Nat :=
      if startsWith s ['0', 'x'] then (s.drop 2, 16)
      else if startsWith s ['$'] then (s.drop 1, 16)
      else (s, 10)
    let r := ParseInt sb.1 sb.2 32
    if r.2 ≠ none ∨ r.1 < 0 ∨ r.1 > 0xffff then -1
    else r.1

/-- The method `(*host).parseByte` (debugger.go, lines 592-609). -/
def parseByte (s : List Char) : Int :=
  let sb : List Char × Nat :=
    if startsWith s ['0', 'x'] then (s.drop 2, 16)
    else if startsWith s ['$'] then (s.drop 1, 16)
    else (s, 10)
  let r := ParseInt sb.1 sb.2 32
  if r.2 ≠ none ∨ r.1 < -128 ∨ r.1 > 255 then -1
  else
    let n := if r.1 < 0 then 256 + r.1 else r.1
    n

/-! ## The host: state, collaborators, `onAssemble`, `load`, `onLoad` -/

/-- What the host prints; only the kind of the message is kept. -/
inductive Msg where
  | syntaxAssemble
  | syntaxLoad
  | failedOpen
  | failedAssemble
  | failedCreate
  | assembled
  | badAddress
  | noSignature
  | exceeded64K
  | loaded (first last : Int)
  | failedMap
  | loadedMap
deriving DecidableEq, Repr

/-- The part of `host` the loader touches: the memory of the machine
(`h.cpu.Mem`), the program counter (`h.cpu.Reg.PC`), the source map and the
text printed so far. -/
structure Host (Mem : Type) where
  mem : Mem
  pc : Nat
  sourceMap : SourceMap
  output : List Msg

/-- The collaborators of the host that live outside `debugger.go`: the file
system (`filepath.Ext`, `filepath.Abs`, opening and reading a file, creating a
file), the memory (`StoreBytes`) and the `asm` package (`Assemble`,
`SourceMap.WriteTo`, `SourceMap.ReadFrom`). `Abs` is `none` when `filepath.Abs`
fails; `readFile` stands for `os.Open` followed by reading the whole file and is
`none` when one of the two fails. -/
structure Env (Mem : Type) where
  Ext : List Char → List Char
  Abs : List Char → Option (List Char)
  readFile : List Char → Option (List Byte)
  canCreate : List Char → Bool
  StoreBytes : Mem → Nat → List Byte → Mem
  Assemble : List Byte → List Char → Option Result
  WriteTo : SourceMap → List Byte
  ReadFrom : SourceMap → List Byte → SourceMap × Bool

/-- One `file.Write` call: the name of the file and the bytes written to it. -/
structure FileWrite where
  name : List Char
  data : List Byte
deriving DecidableEq, Repr

/-- The six header bytes `hdr` that `onAssemble` builds (debugger.go, lines
255-258): `copy(hdr[:4], []byte(signature))`, `hdr[4] = byte(r.Origin)`,
`hdr[5] = byte(r.Origin >> 8)`. -/
def hdr (r : Result) : List Byte :=
  let hdr0 : List Byte := List.replicate 6 0
  let hdr1 := (bytesOf signature).take 4 ++ hdr0.drop ((bytesOf signature).take 4).length
  let hdr2 := hdr1.set 4 (byte r.Origin)
  let hdr3 := hdr2.set 5 (byte (r.Origin >>> 8))
  hdr3

/-- The method `(*host).onAssemble` (debugger.go, lines 220-290): the messages
printed and the file writes made, in order. Writes to a file that was opened
are taken to succeed. -/
def onAssemble {Mem : Type} (env : Env Mem) (args : List (List Char)) :
    List Msg × List FileWrite :=
  match args with
  | [] => ([Msg.syntaxAssemble], [])
  | arg0 :: _ =>
    let filename := if env.Ext arg0 = [] then arg0 ++ ['.', 'a', 's', 'm'] else arg0
    match env.readFile filename with
    | none => ([Msg.failedOpen], [])
    | some src =>
      match env.Assemble src filename with
      | none => ([Msg.failedAssemble], [])
      | some r =>
        let ext := env.Ext filename
        let filePrefix := filename.take (filename.length - ext.length)
        let binFilename := filePrefix ++ ['.', 'b', 'i', 'n']
        if !env.canCreate binFilename then ([Msg.failedCreate], [])
        else
          let w1 : FileWrite := ⟨binFilename, hdr r⟩
          let w2 : FileWrite := ⟨binFilename, r.Code⟩
          let mapFilename := filePrefix ++ ['.', 'm', 'a', 'p']
          if !env.canCreate mapFilename then ([Msg.failedCreate], [w1, w2])
          else
            let w3 : FileWrite := ⟨mapFilename, env.WriteTo r.SourceMap⟩
            ([Msg.assembled], [w1, w2, w3])

/-- The bytes a sequence of writes leaves in the file `name`, in order. -/
def written (name : List Char) (ws : List FileWrite) : List Byte :=
  ((ws.filter fun w => w.name == name).map fun w => w.data).flatten

/-- The files after a sequence of writes. A file written to was opened with
`os.OpenFile(name, os.O_WRONLY|os.O_CREATE, 0600)` (debugger.go, lines 249 and
274): it is created when absent and is not truncated when present, so the bytes
written, from offset 0 on, replace its beginning and what it held beyond them
stays. A name that cannot be read counts as an absent file. -/
def afterWrites (readFile : List Char → Option (List Byte)) (ws : List FileWrite) :
    List Char → Option (List Byte) :=
  fun name =>
    if ws.any (fun w => w.name == name) then
      some (written name ws ++ ((readFile name).getD []).drop (written name ws).length)
    else readFile name

/-- The environment that `onAssemble`, called with `args`, leaves behind: the
files are those after its writes. -/
def afterAssemble {Mem : Type} (env : Env Mem) (args : List (List Char)) : Env Mem :=
  { env with readFile := afterWrites env.readFile (onAssemble env args).2 }

/-- The header test and decoding of `load` (debugger.go, lines 633-637): from
the content `b` of the file and the caller's `origin`, the origin and the code
that the rest of `load` works with. -/
def loadHeader (b : List Byte) (origin : Int) : Int × List Byte :=
  if b.length ≥ 6 ∧ b.take 4 = bytesOf signature then
    (((b.getD 4 0).val ||| (b.getD 5 0).val <<< 8 : Nat), b.drop 6)
  else (origin, b)

/-- The method `(*host).load` (debugger.go, lines 611-670). -/
def load {Mem : Type} (env : Env Mem) (h : Host Mem) (filename : List Char) (origin : Int) :
    Host Mem :=
  match env.Abs filename with
  | none => { h with output := h.output ++ [Msg.failedOpen] }
  | some filename =>
  match env.readFile filename with
  | none => { h with output := h.output ++ [Msg.failedOpen] }
  | some b =>
    let oc := loadHeader b origin
    let origin := oc.1
    let code := oc.2
    if origin = -1 then { h with output := h.output ++ [Msg.noSignature] }
    else if wrapInt (origin + code.length) > 0x10000 then
      { h with output := h.output ++ [Msg.exceeded64K] }
    else
      let h1 := { h with mem := env.StoreBytes h.mem (uint16 origin) code }
      let h2 := { h1 with output := h1.output ++ [Msg.loaded origin (origin + code.length - 1)] }
      let h3 := { h2 with pc := uint16 origin }
      let ext := env.Ext filename
      let filePrefix := filename.take (filename.length - ext.length)
      let mapname := filePrefix ++ ['.', 'm', 'a', 'p']
      match env.readFile mapname with
      | none => h3
      | some m =>
        let r := env.ReadFrom h3.sourceMap m
        { h3 with sourceMap := r.1,
                  output := h3.output ++ [if r.2 then Msg.loadedMap else Msg.failedMap] }

/-- The method `(*host).onLoad` (debugger.go, lines 292-313). -/
def onLoad {Mem : Type} (env : Env Mem) (h : Host Mem) (args : List (List Char)) : Host Mem :=
  match args with
  | [] => { h with output := h.output ++ [Msg.syntaxLoad] }
  | arg0 :: rest =>
    let filename := if env.Ext arg0 = [] then arg0 ++ ['.', 'b', 'i', 'n'] else arg0
    match rest with
    | [] => load env h filename (-1)
    | arg1 :: _ =>
      let origin := parseAddr h.sourceMap arg1
      if origin < 0 then { h with output := h.output ++ [Msg.badAddress] }
      else load env h filename origin

/-! ## Numerals, as the debugger's user writes them -/

/-- The value of a string of digits of the given base, continuing from the
value `n` of the digits already read; `none` when a character is not a digit of
that base. No bound is put on the value. -/
def digitsValue (base : Nat) : List Char → Nat → Option Nat
  | [], n => some n
  | c :: cs, n =>
    match digitVal c with
    | none => none
    | some d => if d < base then digitsValue base cs (n * base + d) else none

/-- The value of a numeral of the given base: an optional sign `+` or `-`
followed by at least one digit. -/
def numeralValue (base : Nat) (s : List Char) : Option Int :=
  match s with
  | [] => none
  | c :: cs =>
    if c = '+' then
      if cs = [] then none else (digitsValue base cs 0).map fun (v : Nat) => (v : Int)
    else if c = '-' then
      if cs = [] then none else (digitsValue base cs 0).map fun (v : Nat) => -(v : Int)
    else (digitsValue base (c :: cs) 0).map fun (v : Nat) => (v : Int)

/-- The value of an argument of the debugger read as a number: hexadecimal after
a `0x` or a `$` prefix, decimal otherwise; `none` when it is not a numeral. -/
def numeral (s : List Char) : Option Int :=
  if s.take 2 = ['0', 'x'] then numeralValue 16 (s.drop 2)
  else if s.take 1 = ['$'] then numeralValue 16 (s.drop 1)
  else numeralValue 10 s

/-! ## The assembler, modelled from the specification

Of the package `asm` only the tests (`asm/asm_test.go`) are at hand. The
definitions of this section follow the specification of the assembler and are
checked against the expected output of every test they cover. They work on
parsed statements; the lexer, labels and the patching of forward references in
pass 2 are not modelled. -/

/-- Modelled from the spec: the error kinds of the `asm` package (section 7 of
the specification), as far as the modelled operations raise them. -/
inductive AsmError where
  | InvalidAddressingMode
  | OperandOutOfRange
  | BranchOutOfRange
  | UnresolvedSymbol
  | AlignmentError
  | SegmentOverflow
deriving DecidableEq, Repr

deriving instance DecidableEq for Except

/-- Modelled from the spec: the canonical mnemonic set of the `asm` package
(section 6), the CMOS-only mnemonics last. -/
inductive Mnemonic where
  | ADC | AND | ASL | BCC | BCS | BEQ | BIT | BMI | BNE | BPL | BRK | BVC | BVS | CLC
  | CLD | CLI | CLV | CMP | CPX | CPY | DEC | DEX | DEY | EOR | INC | INX | INY | JMP
  | JSR | LDA | LDX | LDY | LSR | NOP | ORA | PHA | PHP | PLA | PLP | ROL | ROR | RTI
  | RTS | SBC | SEC | SED | SEI | STA | STX | STY | TAX | TAY | TSX | TXA | TXS | TYA
  | BRA | PHX | PHY | PLX | PLY | STZ | TRB | TSB
deriving DecidableEq, Repr

/-- Modelled from the spec: the addressing modes of the `asm` package (section 3). -/
inductive AddressingMode where
  | Implied | Accumulator | Immediate | ZeroPage | ZeroPageX | ZeroPageY
  | Absolute | AbsoluteX | AbsoluteY | Indirect | IndexedIndirect | IndirectIndexed
  | Relative | ZeroPageIndirect
deriving DecidableEq, Repr

/-- Modelled from the spec: the instruction table of the `asm` package, mnemonic
and addressing mode to opcode byte: the canonical 6502 table (section 8), with
the 65C02 additions for the CMOS-only mnemonics and the zero-page indirect
mode. -/
def opcode : Mnemonic → AddressingMode → Option Byte
  | .ADC, .Immediate => some 0x69 | .ADC, .ZeroPage => some 0x65
  | .ADC, .ZeroPageX => some 0x75 | .ADC, .Absolute => some 0x6D
  | .ADC, .AbsoluteX => some 0x7D | .ADC, .AbsoluteY => some 0x79
  | .ADC, .IndexedIndirect => some 0x61 | .ADC, .IndirectIndexed => some 0x71
  | .ADC, .ZeroPageIndirect => some 0x72
  | .AND, .Immediate => some 0x29 | .AND, .ZeroPage => some 0x25
  | .AND, .ZeroPageX => some 0x35 | .AND, .Absolute => some 0x2D
  | .AND, .AbsoluteX => some 0x3D | .AND, .AbsoluteY => some 0x39
  | .AND, .IndexedIndirect => some 0x21 | .AND, .IndirectIndexed => some 0x31
  | .AND, .ZeroPageIndirect => some 0x32
  | .ASL, .Accumulator => some 0x0A | .ASL, .ZeroPage => some 0x06
  | .ASL, .ZeroPageX => some 0x16 | .ASL, .Absolute => some 0x0E
  | .ASL, .AbsoluteX => some 0x1E
  | .BCC, .Relative => some 0x90 | .BCS, .Relative => some 0xB0
  | .BEQ, .Relative => some 0xF0 | .BMI, .Relative => some 0x30
  | .BNE, .Relative => some 0xD0 | .BPL, .Relative => some 0x10
  | .BVC, .Relative => some 0x50 | .BVS, .Relative => some 0x70
  | .BIT, .ZeroPage => some 0x24 | .BIT, .Absolute => some 0x2C
  | .BRK, .Implied => some 0x00
  | .CLC, .Implied => some 0x18 | .CLD, .Implied => some 0xD8
  | .CLI, .Implied => some 0x58 | .CLV, .Implied => some 0xB8
  | .CMP, .Immediate => some 0xC9 | .CMP, .ZeroPage => some 0xC5
  | .CMP, .ZeroPageX => some 0xD5 | .CMP, .Absolute => some 0xCD
  | .CMP, .AbsoluteX => some 0xDD | .CMP, .AbsoluteY => some 0xD9
  | .CMP, .IndexedIndirect => some 0xC1 | .CMP, .IndirectIndexed => some 0xD1
  | .CMP, .ZeroPageIndirect => some 0xD2
  | .CPX, .Immediate => some 0xE0 | .CPX, .ZeroPage => some 0xE4
  | .CPX, .Absolute => some 0xEC
  | .CPY, .Immediate => some 0xC0 | .CPY, .ZeroPage => some 0xC4
  | .CPY, .Absolute => some 0xCC
  | .DEC, .ZeroPage => some 0xC6 | .DEC, .ZeroPageX => some 0xD6
  | .DEC, .Absolute => some 0xCE | .DEC, .AbsoluteX => some 0xDE
  | .DEX, .Implied => some 0xCA | .DEY, .Implied => some 0x88
  | .EOR, .Immediate => some 0x49 | .EOR, .ZeroPage => some 0x45
  | .EOR, .ZeroPageX => some 0x55 | .EOR, .Absolute => some 0x4D
  | .EOR, .AbsoluteX => some 0x5D | .EOR, .AbsoluteY => some 0x59
  | .EOR, .IndexedIndirect => some 0x41 | .EOR, .IndirectIndexed => some 0x51
  | .EOR, .ZeroPageIndirect => some 0x52
  | .INC, .ZeroPage => some 0xE6 | .INC, .ZeroPageX => some 0xF6
  | .INC, .Absolute => some 0xEE | .INC, .AbsoluteX => some 0xFE
  | .INX, .Implied => some 0xE8 | .INY, .Implied => some 0xC8
  | .JMP, .Absolute => some 0x4C | .JMP, .Indirect => some 0x6C
  | .JSR, .Absolute => some 0x20
  | .LDA, .Immediate => some 0xA9 | .LDA, .ZeroPage => some 0xA5
  | .LDA, .ZeroPageX => some 0xB5 | .LDA, .Absolute => some 0xAD
  | .LDA, .AbsoluteX => some 0xBD | .LDA, .AbsoluteY => some 0xB9
  | .LDA, .IndexedIndirect => some 0xA1 | .LDA, .IndirectIndexed => some 0xB1
  | .LDA, .ZeroPageIndirect => some 0xB2
  | .LDX, .Immediate => some 0xA2 | .LDX, .ZeroPage => some 0xA6
  | .LDX, .ZeroPageY => some 0xB6 | .LDX, .Absolute => some 0xAE
  | .LDX, .AbsoluteY => some 0xBE
  | .LDY, .Immediate => some 0xA0 | .LDY, .ZeroPage => some 0xA4
  | .LDY, .ZeroPageX => some 0xB4 | .LDY, .Absolute => some 0xAC
  | .LDY, .AbsoluteX => some 0xBC
  | .LSR, .Accumulator => some 0x4A | .LSR, .ZeroPage => some 0x46
  | .LSR, .ZeroPageX => some 0x56 | .LSR, .Absolute => some 0x4E
  | .LSR, .AbsoluteX => some 0x5E
  | .NOP, .Implied => some 0xEA
  | .ORA, .Immediate => some 0x09 | .ORA, .ZeroPage => some 0x05
  | .ORA, .ZeroPageX => some 0x15 | .ORA, .Absolute => some 0x0D
  | .ORA, .AbsoluteX => some 0x1D | .ORA, .AbsoluteY => some 0x19
  | .ORA, .IndexedIndirect => some 0x01 | .ORA, .IndirectIndexed => some 0x11
  | .ORA, .ZeroPageIndirect => some 0x12
  | .PHA, .Implied => some 0x48 | .PHP, .Implied => some 0x08
  | .PLA, .Implied => some 0x68 | .PLP, .Implied => some 0x28
  | .ROL, .Accumulator => some 0x2A | .ROL, .ZeroPage => some 0x26
  | .ROL, .ZeroPageX => some 0x36 | .ROL, .Absolute => some 0x2E
  | .ROL, .AbsoluteX => some 0x3E
  | .ROR, .Accumulator => some 0x6A | .ROR, .ZeroPage => some 0x66
  | .ROR, .ZeroPageX => some 0x76 | .ROR, .Absolute => some 0x6E
  | .ROR, .AbsoluteX => some 0x7E
  | .RTI, .Implied => some 0x40 | .RTS, .Implied => some 0x60
  | .SBC, .Immediate => some 0xE9 | .SBC, .ZeroPage => some 0xE5
  | .SBC, .ZeroPageX => some 0xF5 | .SBC, .Absolute => some 0xED
  | .SBC, .AbsoluteX => some 0xFD | .SBC, .AbsoluteY => some 0xF9
  | .SBC, .IndexedIndirect => some 0xE1 | .SBC, .IndirectIndexed => some 0xF1
  | .SBC, .ZeroPageIndirect => some 0xF2
  | .SEC, .Implied => some 0x38 | .SED, .Implied => some 0xF8
  | .SEI, .Implied => some 0x78
  | .STA, .ZeroPage => some 0x85 | .STA, .ZeroPageX => some 0x95
  | .STA, .Absolute => some 0x8D | .STA, .AbsoluteX => some 0x9D
  | .STA, .AbsoluteY => some 0x99 | .STA, .IndexedIndirect => some 0x81
  | .STA, .IndirectIndexed => some 0x91 | .STA, .ZeroPageIndirect => some 0x92
  | .STX, .ZeroPage => some 0x86 | .STX, .ZeroPageY => some 0x96
  | .STX, .Absolute => some 0x8E
  | .STY, .ZeroPage => some 0x84 | .STY, .ZeroPageX => some 0x94
  | .STY, .Absolute => some 0x8C
  | .TAX, .Implied => some 0xAA | .TAY, .Implied => some 0xA8
  | .TSX, .Implied => some 0xBA | .TXA, .Implied => some 0x8A
  | .TXS, .Implied => some 0x9A | .TYA, .Implied => some 0x98
  | .BRA, .Relative => some 0x80
  | .PHX, .Implied => some 0xDA | .PHY, .Implied => some 0x5A
  | .PLX, .Implied => some 0xFA | .PLY, .Implied => some 0x7A
  | .STZ, .ZeroPage => some 0x64 | .STZ, .ZeroPageX => some 0x74
  | .STZ, .Absolute => some 0x9C | .STZ, .AbsoluteX => some 0x9E
  | .TRB, .ZeroPage => some 0x14 | .TRB, .Absolute => some 0x1C
  | .TSB, .ZeroPage => some 0x04 | .TSB, .Absolute => some 0x0C
  | _, _ => none

/-- Modelled from the spec: the unary operators of an expression (section 3). -/
inductive UnaryOp where
  | Neg | BitNot | HighByte | LowByte
deriving DecidableEq, Repr

/-- Modelled from the spec: the binary operators of an expression (section 3). -/
inductive BinaryOp where
  | Add | Sub | Mul | Div | Mod | Shl | Shr | And | Or | Xor
deriving DecidableEq, Repr

/-- Modelled from the spec: the expression tree of the `asm` package (section 3);
a character literal is the `Integer` of its byte. -/
inductive Expr where
  | Integer (v : Int)
  | Symbol (name : List Char)
  | Unary (op : UnaryOp) (child : Expr)
  | Binary (op : BinaryOp) (lhs rhs : Expr)
deriving DecidableEq, Repr

/-- The 32 bits of an integer in two's complement, read as an unsigned number. -/
def toU32 (v : Int) : Nat := (v % 4294967296).toNat

/-- Modelled from the spec: "all arithmetic is performed in signed 32-bit with
wrapping on overflow" (section 4.2): the signed 32-bit value with the same low
32 bits. -/
def wrap32 (v : Int) : Int :=
  if toU32 v < 2147483648 then (toU32 v : Int) else (toU32 v : Int) - 4294967296

/-- Modelled from the spec: the value of a unary operation (sections 3, 4.2). -/
def evalUnary (op : UnaryOp) (a : Int) : Int :=
  match op with
  | .Neg => wrap32 (-a)
  | .BitNot => wrap32 (-a - 1)
  | .HighByte => (a / 256) % 256
  | .LowByte => a % 256

/-- Modelled from the spec: the value of a binary operation on signed 32-bit
values (sections 3, 4.2). The specification is silent on a division by zero and
on a negative shift count; they have no value here. Division truncates towards
zero and `>>` keeps the sign. -/
def evalBinary (op : BinaryOp) (a b : Int) : Option Int :=
  match op with
  | .Add => some (wrap32 (a + b))
  | .Sub => some (wrap32 (a - b))
  | .Mul => some (wrap32 (a * b))
  | .Div => if b = 0 then none else some (wrap32 (Int.tdiv a b))
  | .Mod => if b = 0 then none else some (wrap32 (Int.tmod a b))
  | .Shl => if b < 0 then none else some (wrap32 (a * 2 ^ b.toNat))
  | .Shr => if b < 0 then none else some (a / 2 ^ b.toNat)
  | .And => some (wrap32 (Nat.land (toU32 a) (toU32 b)))
  | .Or => some (wrap32 (Nat.lor (toU32 a) (toU32 b)))
  | .Xor => some (wrap32 (Nat.xor (toU32 a) (toU32 b)))

/-- Modelled from the spec: the evaluator of the `asm` package (section 4.2):
the signed 32-bit value of an expression under the symbols resolved so far, or
`none` while it has no value (it depends on an unresolved symbol). -/
def eval (syms : List Char → Option Int) : Expr → Option Int
  | .Integer v => some (wrap32 v)
  | .Symbol name => syms name
  | .Unary op child =>
    match eval syms child with
    | none => none
    | some a => some (evalUnary op a)
  | .Binary op lhs rhs =>
    match eval syms lhs, eval syms rhs with
    | some a, some b => evalBinary op a b
    | _, _ => none

/-- The low 8 bits of an integer in two's complement, as a byte. -/
def lowByte (v : Int) : Byte := byte (v % 256).toNat

/-- Modelled from the spec: emission of an integer in `width` bytes,
little-endian (sections 4.4, 4.5): the value is truncated to its low `8*width`
bits, and byte `i` is bits `8*i .. 8*i+7`. -/
def emitLE (width : Nat) (v : Int) : List Byte :=
  (List.range width).map fun i => byte ((v % 2 ^ (8 * width)).toNat >>> (8 * i))

/-- The number a little-endian byte sequence stands for. -/
def fromLE : List Byte → Nat
  | [] => 0
  | b :: bs => b.val + 256 * fromLE bs

/-- Modelled from the spec: the width override of an operand, the prefix `A:`
or `ABS:` (section 4.4). -/
inductive WidthPrefix where
  | A | ABS
deriving DecidableEq, Repr

/-- Modelled from the spec: the operand of an instruction as written, the
"provisional mode category" of section 4.4. -/
inductive Operand where
  | none
  | accumulator
  | immediate (e : Expr)
  | direct (w : Option WidthPrefix) (e : Expr)
  | directX (w : Option WidthPrefix) (e : Expr)
  | directY (w : Option WidthPrefix) (e : Expr)
  | indirect (e : Expr)
  | indexedIndirect (e : Expr)
  | indirectIndexed (e : Expr)
deriving DecidableEq, Repr

/-- Modelled from the spec: "emission order: opcode byte, then operand bytes";
a mode the mnemonic does not support is `InvalidAddressingMode` (section 4.4). -/
def emitInstr (m : Mnemonic) (mode : AddressingMode) (operand : List Byte) :
    Except AsmError (List Byte) :=
  match opcode m mode with
  | none => .error .InvalidAddressingMode
  | some op => .ok (op :: operand)

/-- Modelled from the spec: an operand of one byte (section 4.4): the value must
lie in `-128..=255` (section 7); an operand without a value yet is a zero
placeholder (section 4.6). -/
def byteOperand (m : Mnemonic) (mode : AddressingMode) (val : Option Int) :
    Except AsmError (List Byte) :=
  match val with
  | none => emitInstr m mode [0]
  | some v =>
    if v < -128 ∨ 255 < v then .error .OperandOutOfRange
    else emitInstr m mode [lowByte v]

/-- Modelled from the spec: the addressing-mode selection of section 4.4 for a
category with a zero-page form `zp` and an absolute form `ab`. The zero-page
form is taken when the value is in `0..=255`, no width override is present and
the mnemonic has that form; otherwise the absolute form, with a two-byte
little-endian operand. An operand without a value yet gets the absolute form
with zero placeholders (section 4.6). The range `-32768..=65535` of a two-byte
operand is the counterpart of the byte range of section 7. -/
def selectMode (m : Mnemonic) (zp ab : AddressingMode) (w : Option WidthPrefix)
    (val : Option Int) : Except AsmError (List Byte) :=
  match val with
  | none => emitInstr m ab [0, 0]
  | some v =>
    if w = none ∧ 0 ≤ v ∧ v ≤ 255 ∧ (opcode m zp).isSome then emitInstr m zp [lowByte v]
    else if v < -32768 ∨ 65535 < v then .error .OperandOutOfRange
    else emitInstr m ab (emitLE 2 v)

/-- Modelled from the spec: a relative branch (section 4.4): the operand is the
target address and the byte emitted is `target - (pc + 2)` as a signed 8-bit
value; a target without a value yet is a zero placeholder. -/
def branch (m : Mnemonic) (pc : Nat) (val : Option Int) : Except AsmError (List Byte) :=
  match val with
  | none => emitInstr m .Relative [0]
  | some target =>
    if target - (pc + 2) < -128 ∨ 127 < target - (pc + 2) then .error .BranchOutOfRange
    else emitInstr m .Relative [lowByte (target - (pc + 2))]

/-- Modelled from the spec: the encoding of one instruction at program counter
`pc` (section 4.4), from the mnemonic and the operand as written. -/
def encode (syms : List Char → Option Int) (pc : Nat) (m : Mnemonic) :
    Operand → Except AsmError (List Byte)
  | .none =>
    if (opcode m .Implied).isSome then emitInstr m .Implied []
    else emitInstr m .Accumulator []
  | .accumulator => emitInstr m .Accumulator []
  | .immediate e => byteOperand m .Immediate (eval syms e)
  | .direct w e =>
    if (opcode m .Relative).isSome then branch m pc (eval syms e)
    else selectMode m .ZeroPage .Absolute w (eval syms e)
  | .directX w e => selectMode m .ZeroPageX .AbsoluteX w (eval syms e)
  | .directY w e => selectMode m .ZeroPageY .AbsoluteY w (eval syms e)
  | .indirect e => selectMode m .ZeroPageIndirect .Indirect none (eval syms e)
  | .indexedIndirect e => byteOperand m .IndexedIndirect (eval syms e)
  | .indirectIndexed e => byteOperand m .IndirectIndexed (eval syms e)

/-- Modelled from the spec: an argument of a data directive (section 4.5): a
string literal or an expression. -/
inductive DataArg where
  | str (s : List Char)
  | expr (e : Expr)
deriving DecidableEq, Repr

/-- Modelled from the spec: the bytes of one argument of `.DB` (`width = 1`),
`.DW` (`width = 2`) or `.DD` (`width = 4`) (section 4.5): an expression emits
`width` bytes little-endian, truncated. A string emits its bytes in order under
each of the three directives: that is what `TestDataWords` and
`TestDataDwords` expect of `.DW "AB"` and `.DD "AB"` (`41 42`), and the tests
are the code at hand. An expression without a value yet is `width` zero
placeholders. -/
def dataArg (syms : List Char → Option Int) (width : Nat) : DataArg → List Byte
  | .str s => bytesOf s
  | .expr e =>
    match eval syms e with
    | none => List.replicate width 0
    | some v => emitLE width v

/-- Modelled from the spec: the string of `.DS` (section 4.5): the bytes of the
string, the final one with its high bit set (OR `0x80`). -/
def termString : List Byte → List Byte
  | [] => []
  | [b] => [byte (b.val ||| 0x80)]
  | b :: c :: bs => b :: termString (c :: bs)

/-- Modelled from the spec: the bytes of one argument of `.DS` (section 4.5): a
string is high-bit terminated, a numeric argument emits its byte as it is. -/
def dsArg (syms : List Char → Option Int) : DataArg → List Byte
  | .str s => termString (bytesOf s)
  | .expr e =>
    match eval syms e with
    | none => [0]
    | some v => emitLE 1 v

/-- Modelled from the spec: the fill of `.ALIGN n` (section 4.5): zero bytes are
emitted one at a time as long as the address of the next byte is not a multiple
of `n`; `fuel` bounds the number of bytes. -/
def alignLoop (n : Nat) : Nat → Nat → List Byte
  | 0, _ => []
  | fuel + 1, pc => if pc % n = 0 then [] else 0 :: alignLoop n fuel (pc + 1)

/-- Modelled from the spec: the bytes `.ALIGN n` emits at program counter `pc`
(section 4.5), for a positive `n`; fewer than `n` bytes are ever needed. -/
def alignBytes (n pc : Nat) : List Byte := alignLoop n n pc

/-- Modelled from the spec: the statements of the assembler covered here: an
instruction and the directives `.DB`, `.DW`, `.DD`, `.DS` and `.ALIGN`
(sections 4.4, 4.5). -/
inductive Stmt where
  | instr (m : Mnemonic) (op : Operand)
  | DB (args : List DataArg)
  | DW (args : List DataArg)
  | DD (args : List DataArg)
  | DS (args : List DataArg)
  | ALIGN (e : Expr)
deriving DecidableEq, Repr

/-- Modelled from the spec: the bytes one statement emits at program counter
`pc` (sections 4.4, 4.5). The argument of `.ALIGN` must have a value, a positive
one (`AlignmentError` otherwise). -/
def emitStmt (syms : List Char → Option Int) (pc : Nat) : Stmt → Except AsmError (List Byte)
  | .instr m op => encode syms pc m op
  | .DB args => .ok (args.map (dataArg syms 1)).flatten
  | .DW args => .ok (args.map (dataArg syms 2)).flatten
  | .DD args => .ok (args.map (dataArg syms 4)).flatten
  | .DS args => .ok (args.map (dsArg syms)).flatten
  | .ALIGN e =>
    match eval syms e with
    | none => .error .UnresolvedSymbol
    | some n => if n ≤ 0 then .error .AlignmentError else .ok (alignBytes n.toNat pc)

/-- Modelled from the spec: the driver of the assembler on parsed statements
(sections 3, 4.6, 4.7): the statements emit their bytes in order, the program
counter being the origin plus the number of bytes emitted so far, and may not
pass `0x10000` (`SegmentOverflow`). -/
def assembleFrom (syms : List Char → Option Int) (origin : Nat) :
    List Stmt → List Byte → Except AsmError (List Byte)
  | [], code => .ok code
  | st :: rest, code =>
    match emitStmt syms (origin + code.length) st with
    | .error err => .error err
    | .ok bs =>
      if origin + code.length + bs.length > 0x10000 then .error .SegmentOverflow
      else assembleFrom syms origin rest (code ++ bs)

/-- Modelled from the spec: `Assemble` on parsed statements, for a source
without symbols and without `.ORG`, as the tests call it; the program counter
starts at 0. -/
def assemble (stmts : List Stmt) : Except AsmError (List Byte) :=
  assembleFrom (fun _ => none) 0 stmts []

/-- The digit table `hex` that `checkASM` indexes. It is declared in the package
`asm` outside the test file; the expected strings of the tests use upper-case
digits. -/
def hex : List Char := "0123456789ABCDEF".toList

/-- The string `checkASM` builds from the assembled code (asm_test.go, lines
34-40): two hexadecimal digits a byte, `hex[v>>4]` then `hex[v&0x0f]`. -/
def hexString : List Byte → List Char
  | [] => []
  | v :: rest => hex.getD (v.val >>> 4) '?' :: hex.getD (v.val &&& 0x0f) '?' :: hexString rest

/-- The helper `checkASM` of the tests (asm_test.go, lines 31-47) on a parsed
program: whether the program assembles and the code, in hexadecimal, is the
expected string. -/
def checkASM (prog : List Stmt) (expected : String) : Bool :=
  match assemble prog with
  | .ok code => hexString code == expected.toList
  | .error _ => false

/-! ## The programs of `asm_test.go`, parsed -/

/-- The literal `$20` as a direct operand. -/
def zp20 : Operand := .direct none (.Integer 0x20)

/-- The literal `$2000` as a direct operand. -/
def abs2000 : Operand := .direct none (.Integer 0x2000)

/-- The program of `TestAddressingIMM`. -/
def progIMM : List Stmt :=
  [Mnemonic.LDA, .LDX, .LDY, .ADC, .SBC, .CMP, .CPX, .CPY, .AND, .ORA, .EOR].map
    fun m => .instr m (.immediate (.Integer 0x20))

/-- The program of `TestAddressingABS`. -/
def progABS : List Stmt :=
  ([Mnemonic.LDA, .LDX, .LDY, .STA, .STX, .STY, .ADC, .SBC, .CMP, .CPX, .CPY, .BIT, .AND,
      .ORA, .EOR, .INC, .DEC, .JMP, .JSR, .ASL, .LSR, .ROL, .ROR].map
    fun m => Stmt.instr m abs2000)
  ++ [.instr .LDA (.direct (some .A) (.Integer 0x20)),
      .instr .LDA (.direct (some .ABS) (.Integer 0x20))]

/-- The program of `TestAddressingABX`. -/
def progABX : List Stmt :=
  [Mnemonic.LDA, .LDY, .STA, .ADC, .SBC, .CMP, .AND, .ORA, .EOR, .INC, .DEC, .ASL, .LSR,
      .ROL, .ROR].map
    fun m => .instr m (.directX none (.Integer 0x2000))

/-- The program of `TestAddressingABY`. -/
def progABY : List Stmt :=
  [Mnemonic.LDA, .LDX, .STA, .ADC, .SBC, .CMP, .AND, .ORA, .EOR].map
    fun m => .instr m (.directY none (.Integer 0x2000))

/-- The program of `TestAddressingZPG`. -/
def progZPG : List Stmt :=
  [Mnemonic.LDA, .LDX, .LDY, .STA, .STX, .STY, .ADC, .SBC, .CMP, .CPX, .CPY, .BIT, .AND,
      .ORA, .EOR, .INC, .DEC, .ASL, .LSR, .ROL, .ROR].map
    fun m => .instr m zp20

/-- The program of `TestAddressingIND`. -/
def progIND : List Stmt :=
  [.instr .JMP (.indirect (.Integer 0x20)), .instr .JMP (.indirect (.Integer 0x2000))]

/-- The arguments of the eleven data lines of `TestDataBytes`; `TestDataWords`
and `TestDataDwords` have the last two lines in the other order. -/
def dataLines : List (List DataArg) :=
  [[.str ['A', 'B'], .expr (.Integer 0x00)],
   [.expr (.Integer 'f'.toNat), .expr (.Integer 'f'.toNat)],
   [.expr (.Integer 0xABCD)],
   [.expr (.Binary .Shr (.Integer 0xABCD) (.Integer 8))],
   [.expr (.Integer 0x0102)],
   [.expr (.Integer 0x03040506)],
   [.expr (.Binary .Add (.Binary .Add (.Binary .Add (.Integer 1) (.Integer 2)) (.Integer 3))
      (.Integer 4))],
   [.expr (.Unary .Neg (.Integer 1))],
   [.expr (.Unary .Neg (.Integer 129))],
   [.expr (.Integer 0b0101010101010101)],
   [.expr (.Integer 0b01010101)]]

/-- The data lines in the order of `TestDataWords` and `TestDataDwords`. -/
def dataLinesW : List (List DataArg) :=
  dataLines.take 9 ++ [[.expr (.Integer 0b01010101)], [.expr (.Integer 0b0101010101010101)]]

/-- The program of `TestDataTermStrings`. -/
def progDS : List Stmt :=
  [.DS [.str ['A', 'A', 'A']], .DS [.str ['a'], .expr (.Integer 0)], .DS [.str []]]

/-- The program of `TestAlign`. -/
def progAlign : List Stmt :=
  [.ALIGN (.Integer 4), .DB [.expr (.Integer 0xff)], .ALIGN (.Integer 2),
   .DB [.expr (.Integer 0xff)], .ALIGN (.Integer 8), .DB [.expr (.Integer 0xff)],
   .ALIGN (.Integer 1), .DB [.expr (.Integer 0xff)]]

/-! ## `splitArgs` -/

/-- The Go library function `strings.IndexAny(s, chars)` for ASCII `chars`: the
index of the first byte of `s` that is one of `chars`, or `-1` when there is
none. -/
def IndexAny : List Char → List Char → Int
  | [], _ => -1
  | c :: cs, chars =>
    if chars.contains c then 0
    else if IndexAny cs chars = -1 then -1
    else IndexAny cs chars + 1

/-- The inner loop of `splitArgs` (debugger.go, lines 701-703),
`for i < len(args) && (args[i] == ' ' || args[i] == '\t') { i++ }`: `rest` is
`args[i:]`, so that `i < len(args)` says that `rest` is not empty and `args[i]`
is its first byte; the value is `i` when the loop is left. -/
def skipBlanks : List Char → Nat → Nat
  | [], i => i
  | c :: rest, i => if c == ' ' || c == '\t' then skipBlanks rest (i + 1) else i

/-- The outer loop of `splitArgs` (debugger.go, lines 687-705), run for at most
`fuel` passes: `args` and `ss` are the variables of that name at the head of the
loop, the value is the slice returned, and `none` says that `fuel` passes did
not leave the loop. -/
def splitArgs.loop : Nat → List Char → List (List Char) → Option (List (List Char))
  | 0, _, _ => none
  | fuel + 1, args, ss =>
    if args.length > 0 then
      let i := IndexAny args [' ', '\t']
      if i = -1 then
        if args.length > 0 then some (ss ++ [args]) else some ss
      else
        let ss1 := if i > 0 then ss ++ [args.take i.toNat] else ss
        let i1 := skipBlanks (args.drop i.toNat) i.toNat
        splitArgs.loop fuel (args.drop i1) ss1
    else some ss

/-- The function `splitArgs` (debugger.go, lines 685-707). Every pass of the
loop but the last shortens `args`, so `len(args) + 1` passes are allowed. -/
def splitArgs (args : List Char) : Option (List (List Char)) :=
  splitArgs.loop (args.length + 1) args []

/-- Whether a byte is one of the two separators, space and tab. -/
def isBlank (c : Char) : Bool := c == ' ' || c == '\t'

/-- The maximal runs of bytes of `a` that are neither space nor tab, in order:
`a` is cut at every separator and the empty pieces (before a leading, after a
trailing and between adjacent separators) are dropped. -/
def fields (a : List Char) : List (List Char) :=
  (a.splitOnP isBlank).filter fun r => r ≠ []

/-! ## A concrete environment, for evaluating the definitions -/

/-- The Go library function `filepath.Ext` on a path with `/` separators: the
suffix starting at the last dot of the last path element, or the empty string. -/
def sampleExt (path : List Char) : List Char :=
  let last := (path.reverse.takeWhile fun c => c != '/').reverse
  if last.contains '.' then
    '.' :: (last.reverse.takeWhile fun c => c != '.').reverse
  else []

/-- A memory that records the `StoreBytes` calls made on it, latest first. -/
abbrev StoreLog := List (Nat × List Byte)

/-- A file `prog.bin` with a header for origin `0x0600` and two code bytes. -/
def sampleBin : List Byte := [0x35, 0x36, 0x6F, 0x67, 0x00, 0x06, 0xA9, 0x20]

/-- A file `raw.bin` of five bytes that begins with the signature. -/
def sampleRaw : List Byte := [0x35, 0x36, 0x6F, 0x67, 0x01]

/-- The result of assembling `prog.asm`: origin `0x0600`, code `A9 20`. -/
def sampleResult : Result := ⟨0x0600, [0xA9, 0x20], ⟨[⟨['S', 'T', 'A', 'R', 'T'], 0x0600⟩]⟩⟩

/-- An environment with the files `prog.asm`, `prog.bin` and `raw.bin`. -/
def sampleEnv : Env StoreLog where
  Ext := sampleExt
  Abs := fun name => some name
  readFile := fun name =>
    if name = "prog.bin".toList then some sampleBin
    else if name = "raw.bin".toList then some sampleRaw
    else if name = "prog.asm".toList then some []
    else none
  canCreate := fun _ => true
  StoreBytes := fun m addr code => (addr, code) :: m
  Assemble := fun _ _ => some sampleResult
  WriteTo := fun _ => []
  ReadFrom := fun sm _ => (sm, true)

/-- A source map with a repeated label and a label that reads as a number. -/
def sampleMap : SourceMap :=
  ⟨[⟨"START".toList, 0x0600⟩, ⟨"10".toList, 0x0700⟩, ⟨"START".toList, 0x0800⟩]⟩

/-- The result of assembling `prog.asm` after it was cut down to one `RTS`. -/
def shorterResult : Result := ⟨0x0600, [0x60], ⟨[]⟩⟩

/-- The environment `sampleEnv`, where `prog.bin` holds 8 bytes, with an
assembler that yields the 1-byte program `shorterResult`. -/
def staleEnv : Env StoreLog := { sampleEnv with Assemble := fun _ _ => some shorterResult }

/-- A host whose memory has not been stored to, stopped at `0xF800`. -/
def sampleHost : Host StoreLog := ⟨[], 0xF800, ⟨[]⟩, []⟩

/-! ## Facts about bytes -/

theorem byte_val (x : Nat) : (byte x).val = x % 256 := rfl

theorem or_shift8 (a b : Nat) (ha : a < 256) : a ||| b <<< 8 = a + 256 * b := by
  have h := Nat.mul_add_lt_is_or (i := 8) (b := a) (by simpa using ha) b
  rw [Nat.shiftLeft_eq, Nat.or_comm, Nat.mul_comm b]
  simpa [Nat.add_comm] using h.symm

theorem hdr_eq (r : Result) :
    hdr r = [0x35, 0x36, 0x6F, 0x67, byte r.Origin, byte (r.Origin >>> 8)] := rfl

/-! ## The binary artifact -/

theorem hdr_code_bytes (r : Result) (ho : r.Origin < 65536) :
    (hdr r ++ r.Code).map Fin.val
        = ['5'.toNat, '6'.toNat, 'o'.toNat, 'g'.toNat] ++ [r.Origin % 256, r.Origin / 256]
            ++ r.Code.map Fin.val := by
  have h8 : r.Origin >>> 8 % 256 = r.Origin / 256 := by
    rw [Nat.shiftRight_eq_div_pow]
    have : r.Origin / 2 ^ 8 < 256 := by omega
    exact Nat.mod_eq_of_lt this
  rw [hdr_eq]
  simp [byte_val, h8]
  decide

theorem written_bin_eq {Mem : Type} (env : Env Mem) (arg0 : List Char) (rest : List (List Char))
    (filename : List Char) (src : List Byte) (r : Result)
    (hname : filename = if env.Ext arg0 = [] then arg0 ++ ['.', 'a', 's', 'm'] else arg0)
    (hsrc : env.readFile filename = some src)
    (hasm : env.Assemble src filename = some r)
    (hcreate : env.canCreate
      (filename.take (filename.length - (env.Ext filename).length) ++ ['.', 'b', 'i', 'n']) = true) :
    written (filename.take (filename.length - (env.Ext filename).length) ++ ['.', 'b', 'i', 'n'])
        (onAssemble env (arg0 :: rest)).2 = hdr r ++ r.Code := by
  subst hname
  simp only [onAssemble, hsrc, hasm, hcreate]
  by_cases hm : env.canCreate
      (List.take ((if env.Ext arg0 = [] then arg0 ++ ['.', 'a', 's', 'm'] else arg0).length
        - (env.Ext (if env.Ext arg0 = [] then arg0 ++ ['.', 'a', 's', 'm'] else arg0)).length)
        (if env.Ext arg0 = [] then arg0 ++ ['.', 'a', 's', 'm'] else arg0)
        ++ ['.', 'm', 'a', 'p']) = true
  · simp [hm, written]
  · simp [hm, written]

/-- C1: when `onAssemble` has assembled `filename` to a result with 16-bit origin
`o` and code `c` and has created the `.bin` file, the bytes it writes to that
file (the header write followed by the code write) are, in order, the ASCII
bytes `'5','6','o','g'`, then `o mod 256`, then `o div 256`, then `c`
unchanged; `6 + len(c)` bytes are written. -/
theorem onAssemble_bin_bytes {Mem : Type} (env : Env Mem) (arg0 : List Char)
    (rest : List (List Char)) (filename : List Char) (src : List Byte) (r : Result)
    (hname : filename = if env.Ext arg0 = [] then arg0 ++ ['.', 'a', 's', 'm'] else arg0)
    (hsrc : env.readFile filename = some src)
    (hasm : env.Assemble src filename = some r)
    (hcreate : env.canCreate
      (filename.take (filename.length - (env.Ext filename).length) ++ ['.', 'b', 'i', 'n']) = true)
    (ho : r.Origin < 65536) :
    (written (filename.take (filename.length - (env.Ext filename).length) ++ ['.', 'b', 'i', 'n'])
        (onAssemble env (arg0 :: rest)).2).map Fin.val
        = ['5'.toNat, '6'.toNat, 'o'.toNat, 'g'.toNat] ++ [r.Origin % 256, r.Origin / 256]
            ++ r.Code.map Fin.val
      ∧ (written
          (filename.take (filename.length - (env.Ext filename).length) ++ ['.', 'b', 'i', 'n'])
          (onAssemble env (arg0 :: rest)).2).length = 6 + r.Code.length := by
  rw [written_bin_eq env arg0 rest filename src r hname hsrc hasm hcreate]
  refine ⟨hdr_code_bytes r ho, ?_⟩
  rw [hdr_eq]
  simp
  omega

theorem onAssemble_bin_bytes_witness :
    (written "prog.bin".toList (onAssemble sampleEnv ["prog".toList]).2).map Fin.val
        = [0x35, 0x36, 0x6F, 0x67, 0x00, 0x06, 0xA9, 0x20]
      ∧ (written "prog.bin".toList (onAssemble sampleEnv ["prog".toList]).2).length = 8 :=
  onAssemble_bin_bytes sampleEnv "prog".toList [] "prog.asm".toList [] sampleResult
    (by decide) (by decide) (by decide) (by decide) (by decide)

/-! ## The loader -/

theorem uint16_of_le (x : Int) (h0 : 0 ≤ x) (h1 : x ≤ 0xFFFF) : (uint16 x : Int) = x := by
  unfold uint16
  have : x % 65536 = x := Int.emod_eq_of_lt h0 (by omega)
  rw [this]
  exact Int.toNat_of_nonneg h0

theorem wrapInt_of_lt (x : Int) (h0 : 0 ≤ x) (h1 : x < 2 ^ 63) : wrapInt x = x := by
  unfold wrapInt
  have : (x + 2 ^ 63) % 2 ^ 64 = x + 2 ^ 63 := Int.emod_eq_of_lt (by omega) (by omega)
  omega

theorem load_of_read {Mem : Type} (env : Env Mem) (h : Host Mem) (filename path : List Char)
    (b : List Byte) (origin : Int) (habs : env.Abs filename = some path)
    (hread : env.readFile path = some b) :
    (((loadHeader b origin).1 ≠ -1
        ∧ ¬ wrapInt ((loadHeader b origin).1 + (loadHeader b origin).2.length) > 0x10000) →
      (load env h filename origin).mem
          = env.StoreBytes h.mem (uint16 (loadHeader b origin).1) (loadHeader b origin).2
        ∧ (load env h filename origin).pc = uint16 (loadHeader b origin).1)
    ∧ (((loadHeader b origin).1 = -1
        ∨ wrapInt ((loadHeader b origin).1 + (loadHeader b origin).2.length) > 0x10000) →
      (load env h filename origin).mem = h.mem
        ∧ (load env h filename origin).pc = h.pc
        ∧ (load env h filename origin).sourceMap = h.sourceMap) := by
  refine ⟨fun hh => ?_, fun hh => ?_⟩
  · unfold load
    simp only [habs, hread]
    rw [if_neg hh.1, if_neg hh.2]
    cases env.readFile
        (List.take (path.length - (env.Ext path).length) path ++ ['.', 'm', 'a', 'p'])
      <;> exact ⟨rfl, rfl⟩
  · unfold load
    simp only [habs, hread]
    by_cases h1 : (loadHeader b origin).1 = -1
    · rw [if_pos h1]
      exact ⟨rfl, rfl, rfl⟩
    · rw [if_neg h1, if_pos (hh.resolve_left h1)]
      exact ⟨rfl, rfl, rfl⟩

/-- Round trip of the header and code bytes. For every origin `o ≤ 0xFFFF` and
every code `c`, the bytes `onAssemble` writes (header, then code) are at least 6
bytes long and start with the signature, and the header decoding of `load`
yields the origin `o` and the code `c`, which is the content from offset 6 on,
whatever origin argument the caller passes. When `c` fits below `0x10000`,
`load` of a file with these bytes stores `c` at `o` and sets the program counter
to `o`. -/
theorem loadHeader_hdr_code (r : Result) (ho : r.Origin ≤ 0xFFFF) (origin : Int) :
    6 ≤ (hdr r ++ r.Code).length
      ∧ (hdr r ++ r.Code).take 4 = bytesOf signature
      ∧ (hdr r ++ r.Code).drop 6 = r.Code
      ∧ loadHeader (hdr r ++ r.Code) origin = ((r.Origin : Int), r.Code)
      ∧ ∀ (Mem : Type) (env : Env Mem) (h : Host Mem) (filename path : List Char),
          env.Abs filename = some path → env.readFile path = some (hdr r ++ r.Code) →
          r.Origin + r.Code.length ≤ 0x10000 →
            (load env h filename origin).mem = env.StoreBytes h.mem r.Origin r.Code
              ∧ (load env h filename origin).pc = r.Origin := by
  have h8 : r.Origin >>> 8 % 256 = r.Origin / 256 := by
    rw [Nat.shiftRight_eq_div_pow]
    have : r.Origin / 2 ^ 8 < 256 := by omega
    exact Nat.mod_eq_of_lt this
  have hlen : 6 ≤ (hdr r ++ r.Code).length := by
    rw [hdr_eq]
    simp
  have htake : (hdr r ++ r.Code).take 4 = bytesOf signature := by
    rw [hdr_eq]
    rfl
  have hdrop : (hdr r ++ r.Code).drop 6 = r.Code := by
    rw [hdr_eq]
    rfl
  have hdec : loadHeader (hdr r ++ r.Code) origin = ((r.Origin : Int), r.Code) := by
    unfold loadHeader
    rw [if_pos ⟨hlen, htake⟩, hdrop]
    have h4 : ((hdr r ++ r.Code).getD 4 0).val = r.Origin % 256 := by
      rw [hdr_eq]
      rfl
    have h5 : ((hdr r ++ r.Code).getD 5 0).val = r.Origin / 256 := by
      rw [hdr_eq]
      exact h8
    rw [h4, h5, or_shift8 _ _ (Nat.mod_lt _ (by decide))]
    have : r.Origin % 256 + 256 * (r.Origin / 256) = r.Origin := Nat.mod_add_div _ _
    rw [this]
  refine ⟨hlen, htake, hdrop, hdec, ?_⟩
  intro Mem env h filename path habs hread hfit
  have hl := (load_of_read env h filename path (hdr r ++ r.Code) origin habs hread).1
  rw [hdec] at hl
  have hw : wrapInt ((r.Origin : Int) + (r.Code.length : Int)) = r.Origin + r.Code.length :=
    wrapInt_of_lt _ (by omega) (by omega)
  have hu : uint16 (r.Origin : Int) = r.Origin := by
    have := uint16_of_le (r.Origin : Int) (by omega) (by omega)
    omega
  have := hl ⟨by simp only []; omega, by simp only []; rw [hw]; omega⟩
  simp only [hu] at this
  exact this

theorem any_of_written_ne_nil (name : List Char) (ws : List FileWrite)
    (h : written name ws ≠ []) : ws.any (fun w => w.name == name) = true := by
  by_contra hcon
  apply h
  have hall : ∀ w ∈ ws, (w.name == name) = false := by
    intro w hw
    by_contra hw2
    apply hcon
    rw [List.any_eq_true]
    exact ⟨w, hw, by simpa using hw2⟩
  unfold written
  rw [List.filter_eq_nil_iff.mpr (fun w hw => by simp [hall w hw])]
  rfl

/-- Round trip over a fresh file. When `onAssemble` has assembled `filename` to
a result with origin `o ≤ 0xFFFF` and code `c`, and the `.bin` file was absent
or held no more than `6 + len(c)` bytes before, the file then holds exactly the
header and `c`; `load` of it decodes origin `o` and code `c` whatever origin
the caller passes, and stores `c` at `o` when it fits below `0x10000`. -/
theorem load_after_onAssemble_fresh {Mem : Type} (env : Env Mem) (arg0 : List Char)
    (rest : List (List Char)) (filename : List Char) (src : List Byte) (r : Result)
    (hname : filename = if env.Ext arg0 = [] then arg0 ++ ['.', 'a', 's', 'm'] else arg0)
    (hsrc : env.readFile filename = some src)
    (hasm : env.Assemble src filename = some r)
    (hcreate : env.canCreate
      (filename.take (filename.length - (env.Ext filename).length) ++ ['.', 'b', 'i', 'n']) = true)
    (ho : r.Origin ≤ 0xFFFF)
    (hfresh : ∀ old, env.readFile
        (filename.take (filename.length - (env.Ext filename).length) ++ ['.', 'b', 'i', 'n'])
          = some old → old.length ≤ 6 + r.Code.length)
    (origin : Int) :
    (afterAssemble env (arg0 :: rest)).readFile
        (filename.take (filename.length - (env.Ext filename).length) ++ ['.', 'b', 'i', 'n'])
        = some (hdr r ++ r.Code)
      ∧ loadHeader (hdr r ++ r.Code) origin = ((r.Origin : Int), r.Code)
      ∧ ∀ (h : Host Mem) (name : List Char),
          env.Abs name = some
            (filename.take (filename.length - (env.Ext filename).length) ++ ['.', 'b', 'i', 'n']) →
          r.Origin + r.Code.length ≤ 0x10000 →
            (load (afterAssemble env (arg0 :: rest)) h name origin).mem
                = env.StoreBytes h.mem r.Origin r.Code
              ∧ (load (afterAssemble env (arg0 :: rest)) h name origin).pc = r.Origin := by
  have hw := written_bin_eq env arg0 rest filename src r hname hsrc hasm hcreate
  have hrt := loadHeader_hdr_code r ho origin
  have hfile : (afterAssemble env (arg0 :: rest)).readFile
      (filename.take (filename.length - (env.Ext filename).length) ++ ['.', 'b', 'i', 'n'])
      = some (hdr r ++ r.Code) := by
    show afterWrites env.readFile (onAssemble env (arg0 :: rest)).2 _ = _
    unfold afterWrites
    rw [if_pos (any_of_written_ne_nil _ _ (by
      rw [hw]
      intro hnil
      have := hrt.1
      rw [hnil] at this
      simp at this)), hw]
    have hlen : (hdr r ++ r.Code).length = 6 + r.Code.length := by
      rw [hdr_eq]
      simp
      omega
    have hdrop : List.drop (hdr r ++ r.Code).length
        ((env.readFile (List.take (filename.length - (env.Ext filename).length) filename
          ++ ['.', 'b', 'i', 'n'])).getD []) = [] := by
      apply List.drop_eq_nil_of_le
      cases hold : env.readFile (List.take (filename.length - (env.Ext filename).length) filename
          ++ ['.', 'b', 'i', 'n']) with
      | none => simp
      | some old =>
        have := hfresh old hold
        simp only [Option.getD_some]
        omega
    rw [hdrop, List.append_nil]
  refine ⟨hfile, hrt.2.2.2.1, fun h name habs hfit => ?_⟩
  exact hrt.2.2.2.2 Mem (afterAssemble env (arg0 :: rest)) h name _ habs hfile hfit

theorem load_after_onAssemble_fresh_witness :
    (afterAssemble sampleEnv ["prog".toList]).readFile "prog.bin".toList
        = some (hdr sampleResult ++ sampleResult.Code)
      ∧ (load (afterAssemble sampleEnv ["prog".toList]) sampleHost "prog.bin".toList
          0x0300).mem = [(0x0600, [0xA9, 0x20])] :=
  have h := load_after_onAssemble_fresh sampleEnv "prog".toList [] "prog.asm".toList []
    sampleResult (by decide) (by decide) (by decide) (by decide) (by decide)
    (fun old hold => by
      have : old = sampleBin := by
        have h2 : sampleEnv.readFile
            (List.take ("prog.asm".toList.length - (sampleEnv.Ext "prog.asm".toList).length)
              "prog.asm".toList ++ ['.', 'b', 'i', 'n']) = some sampleBin := by decide
        exact Option.some.inj (hold.symm.trans h2)
      rw [this]
      decide)
    0x0300
  ⟨h.1, (h.2.2 sampleHost "prog.bin".toList (by decide) (by decide)).1⟩

/-- C2: the round trip fails over a longer file. `prog.bin` holds 8 bytes;
`onAssemble` then assembles `prog` to origin `0x0600` and the 1-byte code `60`
and writes the 7 bytes header and code. The file is not truncated and keeps its
eighth byte, so `load` reads 8 bytes, recognises the signature and the origin
`0x0600`, and takes as code and stores the 2 bytes `60 20`, not the code `60`
that was assembled. -/
theorem load_after_onAssemble_stale :
    staleEnv.readFile "prog.bin".toList = some [0x35, 0x36, 0x6F, 0x67, 0x00, 0x06, 0xA9, 0x20]
      ∧ written "prog.bin".toList (onAssemble staleEnv ["prog".toList]).2
          = [0x35, 0x36, 0x6F, 0x67, 0x00, 0x06, 0x60]
      ∧ (afterAssemble staleEnv ["prog".toList]).readFile "prog.bin".toList
          = some [0x35, 0x36, 0x6F, 0x67, 0x00, 0x06, 0x60, 0x20]
      ∧ loadHeader [0x35, 0x36, 0x6F, 0x67, 0x00, 0x06, 0x60, 0x20] (-1) = (0x0600, [0x60, 0x20])
      ∧ (load (afterAssemble staleEnv ["prog".toList]) sampleHost "prog.bin".toList (-1)).mem
          = [(0x0600, [0x60, 0x20])]
      ∧ shorterResult.Code = [0x60] := by
  decide

/-- C3: let `load` read the content `b` of the file. Exactly when `b` has at
least 6 bytes and starts with the signature, `load` strips a header: it works
with the origin in bytes 4 and 5, little-endian, and with the code `b` from
offset 6 on, which it stores at that origin (program counter set to it) when it
fits below `0x10000`. For every other content, also one shorter than 6 bytes
that starts with the signature, the whole of `b` is the code and the caller's
origin is used: `load` stores `b` at that origin when it is a 16-bit address
and `b` fits, and with the origin `-1` it stores nothing: memory, program
counter and source map are unchanged. `onLoad` without an address calls `load` with
`-1`. -/
theorem load_header_exactly {Mem : Type} (env : Env Mem) (h : Host Mem)
    (filename path : List Char) (b : List Byte) (origin : Int)
    (habs : env.Abs filename = some path) (hread : env.readFile path = some b) :
    (6 ≤ b.length ∧ b.take 4 = bytesOf signature →
      loadHeader b origin
          = ((((b.getD 4 0).val + 256 * (b.getD 5 0).val : Nat) : Int), b.drop 6)
        ∧ ((b.getD 4 0).val + 256 * (b.getD 5 0).val + (b.drop 6).length ≤ 0x10000 →
            (load env h filename origin).mem
                = env.StoreBytes h.mem ((b.getD 4 0).val + 256 * (b.getD 5 0).val) (b.drop 6)
              ∧ (load env h filename origin).pc
                  = (b.getD 4 0).val + 256 * (b.getD 5 0).val))
    ∧ (¬ (6 ≤ b.length ∧ b.take 4 = bytesOf signature) →
      loadHeader b origin = (origin, b)
        ∧ (0 ≤ origin → origin ≤ 0xFFFF → origin + b.length ≤ 0x10000 →
            (load env h filename origin).mem = env.StoreBytes h.mem origin.toNat b
              ∧ (load env h filename origin).pc = origin.toNat)
        ∧ (origin = -1 →
            (load env h filename origin).mem = h.mem
              ∧ (load env h filename origin).pc = h.pc
              ∧ (load env h filename origin).sourceMap = h.sourceMap))
    ∧ (env.Ext filename ≠ [] → onLoad env h [filename] = load env h filename (-1)) := by
  have hl := load_of_read env h filename path b origin habs hread
  refine ⟨fun hh => ?_, fun hn => ?_, fun hext => ?_⟩
  · have hdec : loadHeader b origin
        = ((((b.getD 4 0).val + 256 * (b.getD 5 0).val : Nat) : Int), b.drop 6) := by
      unfold loadHeader
      rw [if_pos hh, or_shift8 _ _ (b.getD 4 0).isLt]
    refine ⟨hdec, fun hfit => ?_⟩
    rw [hdec] at hl
    have h4 := (b.getD 4 0).isLt
    have h5 := (b.getD 5 0).isLt
    have hw : wrapInt ((((b.getD 4 0).val + 256 * (b.getD 5 0).val : Nat) : Int)
        + ((b.drop 6).length : Int))
        = (((b.getD 4 0).val + 256 * (b.getD 5 0).val : Nat) : Int) + ((b.drop 6).length : Int) :=
      wrapInt_of_lt _ (by omega) (by omega)
    have hu : uint16 (((b.getD 4 0).val + 256 * (b.getD 5 0).val : Nat) : Int)
        = (b.getD 4 0).val + 256 * (b.getD 5 0).val := by
      have := uint16_of_le (((b.getD 4 0).val + 256 * (b.getD 5 0).val : Nat) : Int)
        (by omega) (by omega)
      omega
    have := hl.1 ⟨by simp only []; omega, by simp only []; rw [hw]; omega⟩
    simp only [hu] at this
    exact this
  · have hdec : loadHeader b origin = (origin, b) := by
      unfold loadHeader
      rw [if_neg hn]
    rw [hdec] at hl
    refine ⟨hdec, fun h0 h16 hfit => ?_, fun hm => hl.2 (Or.inl hm)⟩
    have hw : wrapInt (origin + (b.length : Int)) = origin + (b.length : Int) :=
      wrapInt_of_lt _ (by omega) (by omega)
    have hu : uint16 origin = origin.toNat := by
      have := uint16_of_le origin h0 (by omega)
      omega
    have := hl.1 ⟨by simp only []; omega, by simp only []; rw [hw]; omega⟩
    simp only [hu] at this
    exact this
  · unfold onLoad
    simp [hext]

theorem load_header_exactly_witness :
    (load sampleEnv sampleHost "prog.bin".toList (-1)).mem = [(0x0600, [0xA9, 0x20])]
      ∧ (load sampleEnv sampleHost "prog.bin".toList 0x0300).pc = 0x0600
      ∧ ¬ (6 ≤ sampleRaw.length ∧ sampleRaw.take 4 = bytesOf signature)
      ∧ sampleRaw.take 4 = bytesOf signature
      ∧ (load sampleEnv sampleHost "raw.bin".toList 0x0300).mem = [(0x0300, sampleRaw)]
      ∧ (load sampleEnv sampleHost "raw.bin".toList 0x0300).pc = 0x0300
      ∧ (load sampleEnv sampleHost "raw.bin".toList (-1)).mem = []
      ∧ onLoad sampleEnv sampleHost ["raw.bin".toList]
          = load sampleEnv sampleHost "raw.bin".toList (-1) :=
  ⟨(((load_header_exactly sampleEnv sampleHost "prog.bin".toList "prog.bin".toList sampleBin
      (-1) (by decide) (by decide)).1 (by decide)).2 (by decide)).1,
   (((load_header_exactly sampleEnv sampleHost "prog.bin".toList "prog.bin".toList sampleBin
      0x0300 (by decide) (by decide)).1 (by decide)).2 (by decide)).2,
   by decide, by decide,
   (((load_header_exactly sampleEnv sampleHost "raw.bin".toList "raw.bin".toList sampleRaw
      0x0300 (by decide) (by decide)).2.1 (by decide)).2.1 (by decide) (by decide)
      (by decide)).1,
   (((load_header_exactly sampleEnv sampleHost "raw.bin".toList "raw.bin".toList sampleRaw
      0x0300 (by decide) (by decide)).2.1 (by decide)).2.1 (by decide) (by decide)
      (by decide)).2,
   (((load_header_exactly sampleEnv sampleHost "raw.bin".toList "raw.bin".toList sampleRaw
      (-1) (by decide) (by decide)).2.1 (by decide)).2.2 rfl).1,
   (load_header_exactly sampleEnv sampleHost "raw.bin".toList "raw.bin".toList sampleRaw
      (-1) (by decide) (by decide)).2.2 (by decide)⟩

/-- C10: let `o ≥ 0` be the origin `load` works with (from the header or from the
caller) and `code` its code, `o + len(code)` within the range of `int`. If
`o + len(code) ≤ 0x10000`, `load` stores `code` at `uint16(o)`, the range stored
to ends at or before `0x10000`, and byte `i` of the code goes to address `o + i`,
which is at most `0xFFFF`: nothing wraps. If `o + len(code) > 0x10000`, `load`
leaves memory, program counter and source map unchanged. -/
theorem load_store_in_bounds {Mem : Type} (env : Env Mem) (h : Host Mem)
    (filename path : List Char) (b : List Byte) (origin : Int)
    (habs : env.Abs filename = some path) (hread : env.readFile path = some b)
    (h0 : 0 ≤ (loadHeader b origin).1)
    (hint : (loadHeader b origin).1 + (loadHeader b origin).2.length < 2 ^ 63) :
    ((loadHeader b origin).1 + (loadHeader b origin).2.length ≤ 0x10000 →
      (load env h filename origin).mem
          = env.StoreBytes h.mem (uint16 (loadHeader b origin).1) (loadHeader b origin).2
        ∧ uint16 (loadHeader b origin).1 + (loadHeader b origin).2.length ≤ 0x10000
        ∧ ∀ i : Nat, i < (loadHeader b origin).2.length →
            ((uint16 (loadHeader b origin).1 + i : Nat) : Int) = (loadHeader b origin).1 + i
            ∧ uint16 (loadHeader b origin).1 + i ≤ 0xFFFF)
    ∧ ((loadHeader b origin).1 + (loadHeader b origin).2.length > 0x10000 →
      (load env h filename origin).mem = h.mem
        ∧ (load env h filename origin).pc = h.pc
        ∧ (load env h filename origin).sourceMap = h.sourceMap) := by
  have hw := wrapInt_of_lt _ (by omega) hint
  have hl := load_of_read env h filename path b origin habs hread
  rw [hw] at hl
  refine ⟨fun hle => ⟨(hl.1 ⟨by omega, by omega⟩).1, ?_, ?_⟩, fun hgt => hl.2 (Or.inr hgt)⟩
  · have hu : uint16 (loadHeader b origin).1 ≤ (loadHeader b origin).1 := by
      unfold uint16
      omega
    omega
  · intro i hi
    have hu := uint16_of_le (loadHeader b origin).1 h0 (by omega)
    omega

theorem load_store_in_bounds_witness :
    (load sampleEnv sampleHost "prog.bin".toList (-1)).mem = [(0x0600, [0xA9, 0x20])]
      ∧ (load sampleEnv sampleHost "raw.bin".toList 0xFFFC).mem = []
      ∧ (load sampleEnv sampleHost "raw.bin".toList 0xFFFB).mem = [(0xFFFB, sampleRaw)] :=
  ⟨((load_store_in_bounds sampleEnv sampleHost "prog.bin".toList "prog.bin".toList sampleBin
      (-1) (by decide) (by decide) (by decide) (by decide)).1 (by decide)).1,
   ((load_store_in_bounds sampleEnv sampleHost "raw.bin".toList "raw.bin".toList sampleRaw
      0xFFFC (by decide) (by decide) (by decide) (by decide)).2 (by decide)).1,
   ((load_store_in_bounds sampleEnv sampleHost "raw.bin".toList "raw.bin".toList sampleRaw
      0xFFFB (by decide) (by decide) (by decide) (by decide)).1 (by decide)).1⟩

/-! ## `strconv.ParseInt` against the value of a numeral -/

theorem digitsValue_ge (base : Nat) (hb : 1 ≤ base) (cs : List Char) :
    ∀ n v, digitsValue base cs n = some v → n ≤ v := by
  induction cs with
  | nil =>
    intro n v h
    simp [digitsValue] at h
    omega
  | cons c cs ih =>
    intro n v h
    unfold digitsValue at h
    cases hd : digitVal c with
    | none => simp [hd] at h
    | some d =>
      simp only [hd] at h
      by_cases hlt : d < base
      · rw [if_pos hlt] at h
        have h1 := ih _ _ h
        have h2 : n * 1 ≤ n * base := Nat.mul_le_mul_left n hb
        omega
      · rw [if_neg hlt] at h
        cases h

theorem cutoff_mul (base : Nat) (hb : 1 ≤ base) (n : Nat)
    (hn : n ≥ (2 ^ 64 - 1) / base + 1) : 2 ^ 64 ≤ n * base := by
  have h1 : ((2 ^ 64 - 1) / base + 1) * base ≤ n * base := Nat.mul_le_mul_right base hn
  have h2 := Nat.div_add_mod (2 ^ 64 - 1) base
  have h3 := Nat.mod_lt (2 ^ 64 - 1) (show base > 0 by omega)
  have h4 : ((2 ^ 64 - 1) / base + 1) * base = base * ((2 ^ 64 - 1) / base) + base := by ring
  omega

theorem ParseUint_loop_eq (base maxVal : Nat) (hb : 1 ≤ base) (hmax : maxVal < 2 ^ 64)
    (cs : List Char) :
    ∀ n, n ≤ maxVal →
      match digitsValue base cs n with
      | none =>
        ParseUint.loop base ((2 ^ 64 - 1) / base + 1) maxVal cs n = (0, some NumError.ErrSyntax)
          ∨ ParseUint.loop base ((2 ^ 64 - 1) / base + 1) maxVal cs n
              = (maxVal, some NumError.ErrRange)
      | some v =>
        if v ≤ maxVal then
          ParseUint.loop base ((2 ^ 64 - 1) / base + 1) maxVal cs n = (v, none)
        else
          ParseUint.loop base ((2 ^ 64 - 1) / base + 1) maxVal cs n
            = (maxVal, some NumError.ErrRange) := by
  induction cs with
  | nil =>
    intro n hn
    simp [digitsValue, ParseUint.loop, hn]
  | cons c cs ih =>
    intro n hn
    unfold digitsValue ParseUint.loop
    cases hd : digitVal c with
    | none => simp
    | some d =>
      simp only []
      by_cases hlt : d < base
      · rw [if_pos hlt, if_neg (by omega : ¬ d ≥ base)]
        have hmono := digitsValue_ge base hb cs (n * base + d)
        by_cases hc : n ≥ (2 ^ 64 - 1) / base + 1
        · rw [if_pos hc]
          have hbig := cutoff_mul base hb n hc
          cases hv : digitsValue base cs (n * base + d) with
          | none => simp
          | some v =>
            have := hmono v hv
            simp only []
            rw [if_neg (by omega)]
            trivial
        · rw [if_neg hc]
          by_cases hr : n * base + d ≥ 2 ^ 64 ∨ n * base + d > maxVal
          · simp only [if_pos hr]
            cases hv : digitsValue base cs (n * base + d) with
            | none => simp
            | some v =>
              have := hmono v hv
              simp only []
              rw [if_neg (by omega)]
              trivial
          · simp only [if_neg hr]
            exact ih (n * base + d) (by omega)
      · rw [if_neg hlt, if_pos (by omega : d ≥ base)]
        simp

theorem ParseUint_eq (base : Nat) (hb : 1 ≤ base) (s : List Char) (hs : s ≠ []) :
    match digitsValue base s 0 with
    | none =>
      ParseUint s base 32 = (0, some NumError.ErrSyntax)
        ∨ ParseUint s base 32 = (2 ^ 32 - 1, some NumError.ErrRange)
    | some v =>
      if v ≤ 2 ^ 32 - 1 then ParseUint s base 32 = (v, none)
      else ParseUint s base 32 = (2 ^ 32 - 1, some NumError.ErrRange) := by
  unfold ParseUint
  rw [if_neg hs]
  exact ParseUint_loop_eq base (2 ^ 32 - 1) hb (by decide) s 0 (by decide)

theorem ParseInt_signed (base : Nat) (c : Char) (cs : List Char) (un : Nat)
    (err : Option NumError)
    (h : ParseUint (if c == '+' then cs else if c == '-' then cs else c :: cs) base 32
      = (un, err)) :
    ParseInt (c :: cs) base 32 =
      if err = some NumError.ErrSyntax then (0, err)
      else if !(c == '-') ∧ un ≥ 2 ^ 31 then (((2 ^ 31 : Nat) : Int) - 1, some NumError.ErrRange)
      else if (c == '-') ∧ un > 2 ^ 31 then (-((2 ^ 31 : Nat) : Int), some NumError.ErrRange)
      else if (c == '-') then (-(un : Int), none) else ((un : Int), none) := by
  simp only [ParseInt, h]

theorem ParseInt_of_ErrSyntax (base : Nat) (c : Char) (cs : List Char) (un : Nat)
    (h : ParseUint (if c == '+' then cs else if c == '-' then cs else c :: cs) base 32
      = (un, some NumError.ErrSyntax)) :
    (ParseInt (c :: cs) base 32).2 ≠ none := by
  rw [ParseInt_signed base c cs un _ h, if_pos rfl]
  simp

theorem ParseInt_pos (base : Nat) (c : Char) (cs : List Char) (un : Nat)
    (err : Option NumError) (hc : (c == '-') = false)
    (h : ParseUint (if c == '+' then cs else if c == '-' then cs else c :: cs) base 32
      = (un, err))
    (he : err ≠ some NumError.ErrSyntax) :
    ParseInt (c :: cs) base 32
      = if un ≥ 2147483648 then (2147483647, some NumError.ErrRange) else ((un : Int), none) := by
  rw [ParseInt_signed base c cs un err h, if_neg he, hc]
  by_cases h31 : un ≥ 2147483648
  · rw [if_pos h31]
    simp [h31]
  · rw [if_neg h31]
    simp [h31]

theorem ParseInt_neg (base : Nat) (c : Char) (cs : List Char) (un : Nat)
    (err : Option NumError) (hc : (c == '-') = true)
    (h : ParseUint (if c == '+' then cs else if c == '-' then cs else c :: cs) base 32
      = (un, err))
    (he : err ≠ some NumError.ErrSyntax) :
    ParseInt (c :: cs) base 32
      = if un > 2147483648 then (-2147483648, some NumError.ErrRange)
        else (-(un : Int), none) := by
  rw [ParseInt_signed base c cs un err h, if_neg he, hc]
  by_cases h31 : un > 2147483648
  · rw [if_pos h31]
    simp [h31]
  · rw [if_neg h31]
    simp [h31]

theorem ParseUint_cases (base : Nat) (hb : 1 ≤ base) (s : List Char) :
    (∃ v, (if s = [] then none else digitsValue base s 0) = some v ∧ v ≤ 4294967295
        ∧ ParseUint s base 32 = (v, none))
    ∨ (∃ v, (if s = [] then none else digitsValue base s 0) = some v ∧ v > 4294967295
        ∧ ParseUint s base 32 = (4294967295, some NumError.ErrRange))
    ∨ ((if s = [] then none else digitsValue base s 0) = none
        ∧ (ParseUint s base 32 = (0, some NumError.ErrSyntax)
          ∨ ParseUint s base 32 = (4294967295, some NumError.ErrRange))) := by
  by_cases hs : s = []
  · subst hs
    right
    right
    exact ⟨rfl, Or.inl rfl⟩
  · rw [if_neg hs]
    have h := ParseUint_eq base hb s hs
    cases hv : digitsValue base s 0 with
    | none =>
      rw [hv] at h
      right
      right
      exact ⟨rfl, h⟩
    | some v =>
      rw [hv] at h
      dsimp only at h
      by_cases hle : v ≤ 2 ^ 32 - 1
      · rw [if_pos hle] at h
        left
        exact ⟨v, rfl, hle, h⟩
      · rw [if_neg hle] at h
        right
        left
        exact ⟨v, rfl, by omega, h⟩

theorem numeralValue_cons (base : Nat) (c : Char) (cs : List Char) :
    numeralValue base (c :: cs)
      = (if (if c == '+' then cs else if c == '-' then cs else c :: cs) = [] then none
          else digitsValue base (if c == '+' then cs else if c == '-' then cs else c :: cs) 0).map
          (fun (v : Nat) => if (c == '-') = true then -(v : Int) else (v : Int)) := by
  unfold numeralValue
  by_cases hp : c = '+'
  · subst hp
    by_cases hcs : cs = []
    · simp [hcs]
    · simp [hcs]
  · by_cases hm : c = '-'
    · subst hm
      by_cases hcs : cs = []
      · simp [hcs]
      · simp [hcs]
    · simp [hp, hm]

theorem ParseInt_spec (base : Nat) (hb : 1 ≤ base) (s : List Char) :
    (∀ n, numeralValue base s = some n → -2147483648 ≤ n → n ≤ 2147483647 →
        ParseInt s base 32 = (n, none))
    ∧ ((ParseInt s base 32).2 = none →
        numeralValue base s = some (ParseInt s base 32).1
          ∧ -2147483648 ≤ (ParseInt s base 32).1 ∧ (ParseInt s base 32).1 ≤ 2147483647) := by
  cases s with
  | nil =>
    refine ⟨fun n h => ?_, fun h => ?_⟩
    · simp [numeralValue] at h
    · simp [ParseInt] at h
  | cons c cs =>
    rw [numeralValue_cons]
    rcases ParseUint_cases base hb (if c == '+' then cs else if c == '-' then cs else c :: cs)
      with ⟨v, hv, hle, hPU⟩ | ⟨v, hv, hgt, hPU⟩ | ⟨hv, hPU | hPU⟩
    · rw [hv]
      cases hneg : (c == '-')
      · rw [ParseInt_pos base c cs v none hneg hPU (by simp)]
        simp only [Option.map_some', Bool.false_eq_true, if_false]
        refine ⟨fun n h h1 h2 => ?_, fun h => ?_⟩
        · have hn : n = (v : Int) := by
            injection h with h
            exact h.symm
          subst hn
          rw [if_neg (by omega)]
        · by_cases h31 : v ≥ 2147483648
          · rw [if_pos h31] at h
            simp at h
          · rw [if_neg h31]
            dsimp only
            exact ⟨rfl, by omega, by omega⟩
      · rw [ParseInt_neg base c cs v none hneg hPU (by simp)]
        simp only [Option.map_some', if_true]
        refine ⟨fun n h h1 h2 => ?_, fun h => ?_⟩
        · have hn : n = -(v : Int) := by
            injection h with h
            exact h.symm
          subst hn
          rw [if_neg (by omega)]
        · by_cases h31 : v > 2147483648
          · rw [if_pos h31] at h
            simp at h
          · rw [if_neg h31]
            dsimp only
            exact ⟨rfl, by omega, by omega⟩
    · rw [hv]
      cases hneg : (c == '-')
      · rw [ParseInt_pos base c cs _ _ hneg hPU (by simp)]
        simp only [Option.map_some', Bool.false_eq_true, if_false]
        refine ⟨fun n h h1 h2 => ?_, fun h => ?_⟩
        · have hn : n = (v : Int) := by
            injection h with h
            exact h.symm
          omega
        · simp at h
      · rw [ParseInt_neg base c cs _ _ hneg hPU (by simp)]
        simp only [Option.map_some', if_true]
        refine ⟨fun n h h1 h2 => ?_, fun h => ?_⟩
        · have hn : n = -(v : Int) := by
            injection h with h
            exact h.symm
          omega
        · simp at h
    · rw [hv]
      refine ⟨fun n h => ?_, fun h => ?_⟩
      · simp at h
      · exact absurd h (ParseInt_of_ErrSyntax base c cs 0 hPU)
    · rw [hv]
      refine ⟨fun n h => ?_, fun h => ?_⟩
      · simp at h
      · cases hneg : (c == '-')
        · rw [ParseInt_pos base c cs _ _ hneg hPU (by simp)] at h
          simp at h
        · rw [ParseInt_neg base c cs _ _ hneg hPU (by simp)] at h
          simp at h

theorem ParseInt_dichotomy (base : Nat) (hb : 1 ≤ base) (s : List Char) :
    (∃ n, numeralValue base s = some n ∧ -2147483648 ≤ n ∧ n ≤ 2147483647
        ∧ ParseInt s base 32 = (n, none))
    ∨ ((ParseInt s base 32).2 ≠ none
        ∧ ∀ n, numeralValue base s = some n → n < -2147483648 ∨ 2147483647 < n) := by
  have hspec := ParseInt_spec base hb s
  by_cases he : (ParseInt s base 32).2 = none
  · left
    obtain ⟨h1, h2, h3⟩ := hspec.2 he
    exact ⟨(ParseInt s base 32).1, h1, h2, h3, Prod.ext rfl he⟩
  · right
    refine ⟨he, fun n hn => ?_⟩
    by_contra hcon
    have := hspec.1 n hn (by omega) (by omega)
    rw [this] at he
    exact he rfl

theorem startsWith_iff (s m : List Char) : startsWith s m = true ↔ s.take m.length = m := by
  unfold startsWith
  by_cases h : s.length < m.length
  · rw [if_pos h]
    constructor
    · intro hf
      cases hf
    · intro ht
      have := congrArg List.length ht
      rw [List.length_take] at this
      omega
  · rw [if_neg h]
    simp

theorem numeral_eq (s : List Char) :
    numeral s
      = numeralValue
          (if startsWith s ['0', 'x'] then (s.drop 2, 16)
            else if startsWith s ['$'] then (s.drop 1, 16) else (s, 10)).2
          (if startsWith s ['0', 'x'] then (s.drop 2, 16)
            else if startsWith s ['$'] then (s.drop 1, 16) else (s, 10)).1 := by
  unfold numeral
  by_cases h1 : s.take 2 = ['0', 'x']
  · rw [if_pos h1, if_pos ((startsWith_iff s ['0', 'x']).2 h1)]
  · have h1f : ¬ startsWith s ['0', 'x'] = true := fun h => h1 ((startsWith_iff s ['0', 'x']).1 h)
    rw [if_neg h1, if_neg h1f]
    by_cases h2 : s.take 1 = ['$']
    · rw [if_pos h2, if_pos ((startsWith_iff s ['$']).2 h2)]
    · have h2f : ¬ startsWith s ['$'] = true := fun h => h2 ((startsWith_iff s ['$']).1 h)
      rw [if_neg h2, if_neg h2f]

theorem base_pos (s : List Char) :
    1 ≤ (if startsWith s ['0', 'x'] then (s.drop 2, 16)
          else if startsWith s ['$'] then (s.drop 1, 16) else (s, 10)).2 := by
  split_ifs <;> simp

/-! ## The argument parsers -/

theorem parseByte_cases (s : List Char) :
    (numeral s = none ∧ parseByte s = -1)
    ∨ (∃ n, numeral s = some n ∧ (n < -128 ∨ 255 < n) ∧ parseByte s = -1)
    ∨ (∃ n, numeral s = some n ∧ 0 ≤ n ∧ n ≤ 255 ∧ parseByte s = n)
    ∨ (∃ n, numeral s = some n ∧ -128 ≤ n ∧ n < 0 ∧ parseByte s = 256 + n) := by
  rw [numeral_eq]
  unfold parseByte
  have hb := base_pos s
  revert hb
  generalize (if startsWith s ['0', 'x'] then (s.drop 2, 16)
    else if startsWith s ['$'] then (s.drop 1, 16) else (s, 10)) = sb
  intro hb
  rcases ParseInt_dichotomy sb.2 hb sb.1 with ⟨n, hn, h1, h2, hP⟩ | ⟨he, hout⟩
  · simp only [hn, hP]
    by_cases hr : n < -128 ∨ 255 < n
    · right
      left
      exact ⟨n, rfl, hr, by rw [if_pos (by omega)]⟩
    · by_cases h0 : 0 ≤ n
      · right
        right
        left
        refine ⟨n, rfl, h0, by omega, ?_⟩
        rw [if_neg (by simp; omega), if_neg (by omega)]
      · right
        right
        right
        refine ⟨n, rfl, by omega, by omega, ?_⟩
        rw [if_neg (by simp; omega), if_pos (by omega)]
  · simp only []
    rw [if_pos (Or.inl he)]
    cases hv : numeralValue sb.2 sb.1 with
    | none =>
      left
      exact ⟨rfl, rfl⟩
    | some n =>
      right
      left
      exact ⟨n, rfl, by have := hout n hv; omega, rfl⟩

/-- C8: `parseByte` accepts a value exactly when it lies in `-128..=255`. For
every string `s`: the result is `-1` when `s` is not a numeral (decimal, or
hexadecimal after `0x` or `$`) or its value `n` is outside `-128..=255`;
otherwise it is `n` when `n ≥ 0` and `256 + n` when `n < 0`, which lies in
`0..=255` and equals `n mod 256`. A result other than `-1` is returned exactly
for the numerals with a value in `-128..=255`. -/
theorem parseByte_spec (s : List Char) :
    (numeral s = none → parseByte s = -1)
      ∧ (∀ n, numeral s = some n → n < -128 ∨ 255 < n → parseByte s = -1)
      ∧ (∀ n, numeral s = some n → -128 ≤ n → n ≤ 255 →
          parseByte s = (if 0 ≤ n then n else 256 + n)
            ∧ 0 ≤ parseByte s ∧ parseByte s ≤ 255 ∧ parseByte s = n % 256)
      ∧ (parseByte s ≠ -1 ↔ ∃ n, numeral s = some n ∧ -128 ≤ n ∧ n ≤ 255)
      ∧ (parseByte s = -1 ∨ (0 ≤ parseByte s ∧ parseByte s ≤ 255)) := by
  rcases parseByte_cases s with ⟨hn, hp⟩ | ⟨n, hn, hr, hp⟩ | ⟨n, hn, h0, h1, hp⟩
    | ⟨n, hn, h0, h1, hp⟩
  · refine ⟨fun _ => hp, ?_, ?_, ?_, Or.inl hp⟩
    · intro k hk
      rw [hn] at hk
      cases hk
    · intro k hk
      rw [hn] at hk
      cases hk
    · constructor
      · intro h
        exact absurd hp h
      · rintro ⟨k, hk, _⟩
        rw [hn] at hk
        cases hk
  · refine ⟨fun _ => hp, fun _ _ _ => hp, ?_, ?_, Or.inl hp⟩
    · intro k hk h1 h2
      rw [hn] at hk
      injection hk with hk
      omega
    · constructor
      · intro h
        exact absurd hp h
      · rintro ⟨k, hk, h1, h2⟩
        rw [hn] at hk
        injection hk with hk
        omega
  · refine ⟨?_, ?_, ?_, ?_, Or.inr (by omega)⟩
    · intro h
      rw [hn] at h
      cases h
    · intro k hk hr
      rw [hn] at hk
      injection hk with hk
      omega
    · intro k hk _ _
      rw [hn] at hk
      injection hk with hk
      subst hk
      rw [if_pos h0]
      exact ⟨hp, by omega, by omega, by omega⟩
    · constructor
      · intro _
        exact ⟨n, hn, by omega, h1⟩
      · intro _
        omega
  · refine ⟨?_, ?_, ?_, ?_, Or.inr (by omega)⟩
    · intro h
      rw [hn] at h
      cases h
    · intro k hk hr
      rw [hn] at hk
      injection hk with hk
      omega
    · intro k hk _ _
      rw [hn] at hk
      injection hk with hk
      subst hk
      rw [if_neg (by omega)]
      exact ⟨hp, by omega, by omega, by omega⟩
    · constructor
      · intro _
        exact ⟨n, hn, h0, by omega⟩
      · intro _
        omega

theorem parseAddr_of_not_export (sm : SourceMap) (s : List Char)
    (hno : ∀ e ∈ sm.Exports, e.Label ≠ s) :
    (numeral s = none ∧ parseAddr sm s = -1)
    ∨ (∃ n, numeral s = some n ∧ (n < 0 ∨ 0xFFFF < n) ∧ parseAddr sm s = -1)
    ∨ (∃ n, numeral s = some n ∧ 0 ≤ n ∧ n ≤ 0xFFFF ∧ parseAddr sm s = n) := by
  have hfind : sm.Exports.find? (fun e => e.Label == s) = none := by
    rw [List.find?_eq_none]
    intro e he
    simpa using hno e he
  rw [numeral_eq]
  unfold parseAddr
  rw [hfind]
  have hb := base_pos s
  revert hb
  generalize (if startsWith s ['0', 'x'] then (s.drop 2, 16)
    else if startsWith s ['$'] then (s.drop 1, 16) else (s, 10)) = sb
  intro hb
  rcases ParseInt_dichotomy sb.2 hb sb.1 with ⟨n, hn, h1, h2, hP⟩ | ⟨he, hout⟩
  · simp only [hn, hP]
    by_cases hr : n < 0 ∨ 0xFFFF < n
    · right
      left
      exact ⟨n, rfl, hr, by rw [if_pos (by omega)]⟩
    · right
      right
      refine ⟨n, rfl, by omega, by omega, ?_⟩
      rw [if_neg (by simp; omega)]
  · simp only []
    rw [if_pos (Or.inl he)]
    cases hv : numeralValue sb.2 sb.1 with
    | none =>
      left
      exact ⟨rfl, rfl⟩
    | some n =>
      right
      left
      exact ⟨n, rfl, by have := hout n hv; omega, rfl⟩

theorem parseAddr_of_export (sm : SourceMap) (s : List Char) (pre post : List Export)
    (e : Export) (hsplit : sm.Exports = pre ++ e :: post) (hpre : ∀ x ∈ pre, x.Label ≠ s)
    (he : e.Label = s) : parseAddr sm s = (e.Addr : Int) := by
  have hfind : sm.Exports.find? (fun e => e.Label == s) = some e := by
    rw [hsplit]
    clear hsplit
    induction pre with
    | nil => simp [he]
    | cons x xs ih =>
      have hx : x.Label ≠ s := hpre x (List.mem_cons_self _ _)
      simp only [List.cons_append, List.find?_cons]
      have hb : (x.Label == s) = false := by simpa using hx
      rw [hb]
      exact ih fun y hy => hpre y (List.mem_cons_of_mem _ hy)
  unfold parseAddr
  rw [hfind]

/-- C9: for every string `s` and every source map whose export addresses are
16-bit. If some export has label `s`, `parseAddr(s)` is the address of the first
such export, whatever `s` reads as. If none has, `parseAddr(s)` is `n` when `s`
is a numeral (decimal, or hexadecimal after `0x` or `$`) with value `n` in
`0..=0xFFFF`, and `-1` otherwise. Every result is `-1` or lies in `0..=0xFFFF`,
and `uint16` of a non-negative result is that result. -/
theorem parseAddr_spec (sm : SourceMap) (s : List Char)
    (h16 : ∀ e ∈ sm.Exports, e.Addr ≤ 0xFFFF) :
    (∀ (pre post : List Export) (e : Export), sm.Exports = pre ++ e :: post →
        (∀ x ∈ pre, x.Label ≠ s) → e.Label = s → parseAddr sm s = (e.Addr : Int))
      ∧ ((∀ e ∈ sm.Exports, e.Label ≠ s) →
          (numeral s = none → parseAddr sm s = -1)
            ∧ (∀ n, numeral s = some n → n < 0 ∨ 0xFFFF < n → parseAddr sm s = -1)
            ∧ (∀ n, numeral s = some n → 0 ≤ n → n ≤ 0xFFFF → parseAddr sm s = n))
      ∧ (parseAddr sm s = -1 ∨ (0 ≤ parseAddr sm s ∧ parseAddr sm s ≤ 0xFFFF))
      ∧ (0 ≤ parseAddr sm s → (uint16 (parseAddr sm s) : Int) = parseAddr sm s) := by
  have hrange : parseAddr sm s = -1 ∨ (0 ≤ parseAddr sm s ∧ parseAddr sm s ≤ 0xFFFF) := by
    by_cases hex : ∃ e ∈ sm.Exports, e.Label = s
    · cases hf : sm.Exports.find? (fun e => e.Label == s) with
      | none =>
        rw [List.find?_eq_none] at hf
        obtain ⟨e, he, hl⟩ := hex
        exact absurd (by simpa using hl) (hf e he)
      | some e =>
        have hmem := List.mem_of_find?_eq_some hf
        have := h16 e hmem
        right
        unfold parseAddr
        rw [hf]
        constructor
        · exact Int.ofNat_nonneg _
        · simp only []
          omega
    · have hno : ∀ e ∈ sm.Exports, e.Label ≠ s := fun e he hl => hex ⟨e, he, hl⟩
      rcases parseAddr_of_not_export sm s hno with ⟨_, hp⟩ | ⟨n, _, _, hp⟩ | ⟨n, _, h0, h1, hp⟩
      · exact Or.inl hp
      · exact Or.inl hp
      · right
        rw [hp]
        exact ⟨h0, h1⟩
  refine ⟨fun pre post e h1 h2 h3 => parseAddr_of_export sm s pre post e h1 h2 h3, ?_,
    hrange, ?_⟩
  · intro hno
    rcases parseAddr_of_not_export sm s hno with ⟨hn, hp⟩ | ⟨n, hn, hr, hp⟩ | ⟨n, hn, h0, h1, hp⟩
    · refine ⟨fun _ => hp, ?_, ?_⟩
      · intro k hk
        rw [hn] at hk
        cases hk
      · intro k hk
        rw [hn] at hk
        cases hk
    · refine ⟨fun _ => hp, fun _ _ _ => hp, ?_⟩
      intro k hk h0 h1
      rw [hn] at hk
      injection hk with hk
      omega
    · refine ⟨?_, ?_, ?_⟩
      · intro h
        rw [hn] at h
        cases h
      · intro k hk hr
        rw [hn] at hk
        injection hk with hk
        omega
      · intro k hk _ _
        rw [hn] at hk
        injection hk with hk
        rw [hp, hk]
  · intro h0
    rcases hrange with h | ⟨_, h1⟩
    · omega
    · exact uint16_of_le _ h0 h1

theorem parseAddr_spec_witness :
    (∀ e ∈ sampleMap.Exports, e.Addr ≤ 0xFFFF)
      ∧ parseAddr sampleMap "START".toList = 0x0600
      ∧ parseAddr sampleMap "10".toList = 0x0700
      ∧ numeral "11".toList = some 11
      ∧ parseAddr sampleMap "11".toList = 11 :=
  ⟨by decide,
   (parseAddr_spec sampleMap "START".toList (by decide)).1 [] _ ⟨"START".toList, 0x0600⟩
      rfl (by decide) rfl,
   (parseAddr_spec sampleMap "10".toList (by decide)).1 [⟨"START".toList, 0x0600⟩] _
      ⟨"10".toList, 0x0700⟩ rfl (by decide) rfl,
   by decide,
   ((parseAddr_spec sampleMap "11".toList (by decide)).2.1 (by decide)).2.2 11 (by decide)
      (by decide) (by decide)⟩

/-- Sample evaluations of `parseByte` and `parseAddr`. -/
theorem parse_examples :
    parseByte "-1".toList = 255
      ∧ parseByte "-128".toList = 128
      ∧ parseByte "-129".toList = -1
      ∧ parseByte "255".toList = 255
      ∧ parseByte "256".toList = -1
      ∧ parseByte "0x7f".toList = 127
      ∧ parseByte "$FF".toList = 255
      ∧ parseByte "$-1".toList = 255
      ∧ parseByte "+12".toList = 12
      ∧ parseByte "0X10".toList = -1
      ∧ parseByte "".toList = -1
      ∧ parseByte "99999999999999999999".toList = -1
      ∧ parseAddr ⟨[]⟩ "$ffff".toList = 0xFFFF
      ∧ parseAddr ⟨[]⟩ "65536".toList = -1
      ∧ parseAddr ⟨[]⟩ "-0".toList = 0
      ∧ parseAddr ⟨[]⟩ "-1".toList = -1 := by
  decide

/-! ## The assembler model against the tests -/

/-- The model passes `TestAddressingIMM`, `TestAddressingABS`,
`TestAddressingABX`, `TestAddressingABY`, `TestAddressingZPG` and
`TestAddressingIND`. -/
theorem model_addressing_tests :
    checkASM progIMM "A920A220A0206920E920C920E020C020292009204920" = true
      ∧ checkASM progABS
          ("AD0020AE0020AC00208D00208E00208C00206D0020ED0020CD0020"
            ++ "EC0020CC00202C00202D00200D00204D0020EE0020CE00204C00202000200E0020"
            ++ "4E00202E00206E0020AD2000AD2000") = true
      ∧ checkASM progABX
          ("BD0020BC00209D00207D0020FD0020DD00203D00201D00205D0020"
            ++ "FE0020DE00201E00205E00203E00207E0020") = true
      ∧ checkASM progABY "B90020BE0020990020790020F90020D90020390020190020590020" = true
      ∧ checkASM progZPG
          ("A520A620A4208520862084206520E520C520E420C42024202520"
            ++ "05204520E620C6200620462026206620") = true
      ∧ checkASM progIND "6C20006C0020" = true := by
  refine ⟨?_, ?_, ?_, ?_, ?_, ?_⟩ <;> decide

/-- The model passes `TestDataBytes`, `TestDataWords`, `TestDataDwords`,
`TestDataTermStrings` and `TestAlign`. -/
theorem model_data_tests :
    checkASM (dataLines.map Stmt.DB) "4142006666CDAB02060AFF7F5555" = true
      ∧ checkASM (dataLinesW.map Stmt.DW)
          "4142000066006600CDABAB00020106050A00FFFF7FFF55005555" = true
      ∧ checkASM (dataLinesW.map Stmt.DD)
          ("4142000000006600000066000000CDAB0000AB000000020100000"
            ++ "60504030A000000FFFFFFFF7FFFFFFF5500000055550000") = true
      ∧ checkASM progDS "4141C1E100" = true
      ∧ checkASM progAlign "FF00FF0000000000FFFF" = true := by
  refine ⟨?_, ?_, ?_, ?_, ?_⟩ <;> decide

/-! ## Operand width -/

theorem byte_eq_iff (a b : Nat) : byte a = byte b ↔ a % 256 = b % 256 := by
  unfold byte
  simp [Fin.ext_iff]

theorem emitLE_one (v : Int) : emitLE 1 v = [lowByte v] := by
  simp only [emitLE, lowByte, List.range_succ, List.range_zero, List.nil_append, List.map_cons,
    List.map_nil]
  congr 1

theorem emitLE_two (v : Int) :
    emitLE 2 v = [lowByte v, byte ((v / 256) % 256).toNat] := by
  simp only [emitLE, lowByte, List.range_succ, List.range_zero, List.nil_append, List.map_cons,
    List.map_nil, List.map_append, List.cons_append]
  have h0 : byte ((v % 2 ^ (8 * 2)).toNat >>> (8 * 0)) = byte (v % 256).toNat := by
    rw [byte_eq_iff]
    simp only [Nat.mul_zero, Nat.shiftRight_zero]
    omega
  have h1 : byte ((v % 2 ^ (8 * 2)).toNat >>> (8 * 1)) = byte ((v / 256) % 256).toNat := by
    rw [byte_eq_iff, Nat.shiftRight_eq_div_pow]
    omega
  rw [h0, h1]

theorem no_branch_of_zero_page (m : Mnemonic) (h : (opcode m .ZeroPage).isSome) :
    (opcode m .Relative).isSome = false := by
  cases m <;> first | rfl | (exfalso; revert h; decide)

/-- C4: operand-width selection. For every mnemonic with a zero-page form
(opcode `zpOp`) and an absolute form (opcode `absOp`) and every operand whose
value `v` lies in `0..=255`, a literal in particular: without a width prefix
the instruction is the 2 bytes `zpOp, v`; with the prefix `A:` or `ABS:` it is
the 3 bytes `absOp, v, 0`, the operand little-endian. -/
theorem operand_width_selection (syms : List Char → Option Int) (pc : Nat) (m : Mnemonic)
    (e : Expr) (v : Int) (zpOp absOp : Byte)
    (hzp : opcode m .ZeroPage = some zpOp) (hab : opcode m .Absolute = some absOp)
    (hv : eval syms e = some v) (h0 : 0 ≤ v) (h255 : v ≤ 255) :
    encode syms pc m (.direct none e) = .ok [zpOp, byte v.toNat]
      ∧ encode syms pc m (.direct (some .A) e) = .ok [absOp, byte v.toNat, 0]
      ∧ encode syms pc m (.direct (some .ABS) e) = .ok [absOp, byte v.toNat, 0]
      ∧ (byte v.toNat).val = v := by
  have hrel := no_branch_of_zero_page m (by rw [hzp]; rfl)
  have hlow : lowByte v = byte v.toNat := by
    unfold lowByte
    rw [byte_eq_iff]
    omega
  have hhigh : byte ((v / 256) % 256).toNat = 0 := by
    have : ((v / 256) % 256).toNat = 0 := by omega
    rw [this]
    rfl
  have hval : ((byte v.toNat).val : Int) = v := by
    rw [byte_val]
    omega
  refine ⟨?_, ?_, ?_, hval⟩
  · simp only [encode, hrel, hv, selectMode, hzp, emitInstr]
    simp [h0, h255, hlow]
  · simp only [encode, hrel, hv, selectMode, hab, emitInstr, emitLE_two]
    simp only [hlow, hhigh]
    have hr : ¬ (v < -32768 ∨ 65535 < v) := by omega
    simp [hr]
  · simp only [encode, hrel, hv, selectMode, hab, emitInstr, emitLE_two]
    simp only [hlow, hhigh]
    have hr : ¬ (v < -32768 ∨ 65535 < v) := by omega
    simp [hr]

theorem operand_width_selection_witness :
    encode (fun _ => none) 0 .LDA (.direct none (.Integer 0x20)) = .ok [0xA5, 0x20]
      ∧ encode (fun _ => none) 0 .LDA (.direct (some .A) (.Integer 0x20)) = .ok [0xAD, 0x20, 0]
      ∧ encode (fun _ => none) 0 .LDA (.direct (some .ABS) (.Integer 0x20))
          = .ok [0xAD, 0x20, 0] :=
  have h := operand_width_selection (fun _ => none) 0 .LDA (.Integer 0x20) 0x20 0xA5 0xAD
    (by decide) (by decide) (by decide) (by decide) (by decide)
  ⟨h.1, h.2.1, h.2.2.1⟩

/-! ## Data directives -/

theorem emitLE_four (v : Int) :
    emitLE 4 v = [lowByte v, byte ((v / 256) % 256).toNat, byte ((v / 65536) % 256).toNat,
      byte ((v / 16777216) % 256).toNat] := by
  simp only [emitLE, lowByte, List.range_succ, List.range_zero, List.nil_append, List.map_cons,
    List.map_nil, List.map_append, List.cons_append]
  have h0 : byte ((v % 2 ^ (8 * 4)).toNat >>> (8 * 0)) = byte (v % 256).toNat := by
    rw [byte_eq_iff]
    simp only [Nat.mul_zero, Nat.shiftRight_zero]
    omega
  have h1 : byte ((v % 2 ^ (8 * 4)).toNat >>> (8 * 1)) = byte ((v / 256) % 256).toNat := by
    rw [byte_eq_iff, Nat.shiftRight_eq_div_pow]
    omega
  have h2 : byte ((v % 2 ^ (8 * 4)).toNat >>> (8 * 2)) = byte ((v / 65536) % 256).toNat := by
    rw [byte_eq_iff, Nat.shiftRight_eq_div_pow]
    omega
  have h3 : byte ((v % 2 ^ (8 * 4)).toNat >>> (8 * 3))
      = byte ((v / 16777216) % 256).toNat := by
    rw [byte_eq_iff, Nat.shiftRight_eq_div_pow]
    omega
  rw [h0, h1, h2, h3]

/-- C5: for every expression with the signed 32-bit value `v`, `.DB` emits
exactly 1 byte, `.DW` exactly 2 and `.DD` exactly 4: byte `i` is
`(v div 256^i) mod 256`, so that the bytes, least significant first, are the
low 8, 16 and 32 bits of `v` in two's complement. The directive succeeds for
every `v`: no value is rejected as out of range. -/
theorem data_directive_bytes (syms : List Char → Option Int) (pc : Nat) (e : Expr) (v : Int)
    (hv : eval syms e = some v) :
    emitStmt syms pc (.DB [.expr e]) = .ok [byte (v % 256).toNat]
      ∧ emitStmt syms pc (.DW [.expr e])
          = .ok [byte (v % 256).toNat, byte ((v / 256) % 256).toNat]
      ∧ emitStmt syms pc (.DD [.expr e])
          = .ok [byte (v % 256).toNat, byte ((v / 256) % 256).toNat,
              byte ((v / 65536) % 256).toNat, byte ((v / 16777216) % 256).toNat]
      ∧ (fromLE (dataArg syms 1 (.expr e)) : Int) = v % 2 ^ 8
      ∧ (fromLE (dataArg syms 2 (.expr e)) : Int) = v % 2 ^ 16
      ∧ (fromLE (dataArg syms 4 (.expr e)) : Int) = v % 2 ^ 32 := by
  refine ⟨?_, ?_, ?_, ?_, ?_, ?_⟩
  · simp [emitStmt, dataArg, hv, emitLE_one, lowByte]
  · simp [emitStmt, dataArg, hv, emitLE_two, lowByte]
  · simp [emitStmt, dataArg, hv, emitLE_four, lowByte]
  · simp only [dataArg, hv, emitLE_one, lowByte, fromLE, byte_val]
    omega
  · simp only [dataArg, hv, emitLE_two, lowByte, fromLE, byte_val]
    omega
  · simp only [dataArg, hv, emitLE_four, lowByte, fromLE, byte_val]
    omega

theorem data_directive_bytes_witness :
    emitStmt (fun _ => none) 0 (.DB [.expr (.Integer 0xABCD)]) = .ok [0xCD]
      ∧ emitStmt (fun _ => none) 0 (.DB [.expr (.Unary .Neg (.Integer 129))]) = .ok [0x7F]
      ∧ emitStmt (fun _ => none) 0 (.DW [.expr (.Unary .Neg (.Integer 129))])
          = .ok [0x7F, 0xFF]
      ∧ emitStmt (fun _ => none) 0 (.DD [.expr (.Unary .Neg (.Integer 129))])
          = .ok [0x7F, 0xFF, 0xFF, 0xFF] :=
  ⟨(data_directive_bytes (fun _ => none) 0 (.Integer 0xABCD) 0xABCD (by decide)).1.trans
      (by decide),
   (data_directive_bytes (fun _ => none) 0 (.Unary .Neg (.Integer 129)) (-129)
      (by decide)).1.trans (by decide),
   (data_directive_bytes (fun _ => none) 0 (.Unary .Neg (.Integer 129)) (-129)
      (by decide)).2.1.trans (by decide),
   (data_directive_bytes (fun _ => none) 0 (.Unary .Neg (.Integer 129)) (-129)
      (by decide)).2.2.1.trans (by decide)⟩

/-! ## `.ALIGN` -/

theorem alignLoop_eq (n : Nat) (hn : 0 < n) (fuel : Nat) :
    ∀ pc, (n - pc % n) % n ≤ fuel →
      alignLoop n fuel pc = List.replicate ((n - pc % n) % n) 0 := by
  induction fuel with
  | zero =>
    intro pc h
    have h0 : (n - pc % n) % n = 0 := Nat.le_zero.mp h
    rw [h0]
    rfl
  | succ fuel ih =>
    intro pc h
    unfold alignLoop
    by_cases hp : pc % n = 0
    · rw [if_pos hp, hp]
      simp
    · rw [if_neg hp]
      have hlt : pc % n < n := Nat.mod_lt _ hn
      have hk : (n - pc % n) % n = n - pc % n := Nat.mod_eq_of_lt (by omega)
      have hnext : (n - (pc + 1) % n) % n = n - pc % n - 1 := by
        by_cases hlast : pc % n + 1 = n
        · have h1 : (pc + 1) % n = 0 := by
            rw [Nat.add_mod]
            by_cases hn1 : n = 1
            · subst hn1
              simp only [Nat.mod_one]
            · rw [Nat.mod_eq_of_lt (show 1 < n by omega), hlast]
              exact Nat.mod_self n
          rw [h1]
          simp
          omega
        · have h1 : (pc + 1) % n = pc % n + 1 := by
            rw [Nat.add_mod]
            have hn1 : 1 < n := by omega
            rw [Nat.mod_eq_of_lt hn1]
            exact Nat.mod_eq_of_lt (by omega)
          rw [h1]
          exact Nat.mod_eq_of_lt (by omega)
      rw [ih (pc + 1) (by omega), hnext, hk]
      have : n - pc % n = (n - pc % n - 1) + 1 := by omega
      rw [this, List.replicate_succ]
      simp

/-- C6: for every positive `n` and every program counter `pc`, `.ALIGN n`
emits exactly `(n - pc mod n) mod n` bytes, all of them zero; afterwards the
program counter is a multiple of `n`; when `pc` is one already, nothing is
emitted. -/
theorem align_fill (syms : List Char → Option Int) (e : Expr) (n pc : Nat)
    (he : eval syms e = some (n : Int)) (hn : 0 < n) :
    emitStmt syms pc (.ALIGN e) = .ok (List.replicate ((n - pc % n) % n) 0)
      ∧ alignBytes n pc = List.replicate ((n - pc % n) % n) 0
      ∧ (alignBytes n pc).length = (n - pc % n) % n
      ∧ (∀ b ∈ alignBytes n pc, b = 0)
      ∧ (pc + (alignBytes n pc).length) % n = 0
      ∧ (pc % n = 0 → alignBytes n pc = []) := by
  have hfill : alignBytes n pc = List.replicate ((n - pc % n) % n) 0 :=
    alignLoop_eq n hn n pc (Nat.le_of_lt (Nat.mod_lt _ hn))
  refine ⟨?_, hfill, ?_, ?_, ?_, ?_⟩
  · simp only [emitStmt, he]
    rw [if_neg (by omega)]
    simp [hfill]
  · rw [hfill, List.length_replicate]
  · intro b hb
    rw [hfill] at hb
    exact (List.mem_replicate.mp hb).2
  · rw [hfill, List.length_replicate]
    have hlt : pc % n < n := Nat.mod_lt _ hn
    by_cases hp : pc % n = 0
    · rw [hp]
      simp [hp]
    · rw [Nat.mod_eq_of_lt (show n - pc % n < n by omega)]
      have h1 : pc + (n - pc % n) = n + n * (pc / n) := by
        have := Nat.mod_add_div pc n
        omega
      rw [h1]
      simp
  · intro hp
    rw [hfill, hp]
    simp

theorem align_fill_witness :
    emitStmt (fun _ => none) 1 (.ALIGN (.Integer 4)) = .ok [0, 0, 0]
      ∧ emitStmt (fun _ => none) 8 (.ALIGN (.Integer 4)) = .ok [] :=
  ⟨(align_fill (fun _ => none) (.Integer 4) 4 1 (by decide) (by decide)).1,
   (align_fill (fun _ => none) (.Integer 4) 4 8 (by decide) (by decide)).1⟩

/-! ## `.DS` -/

set_option maxRecDepth 100000 in
theorem high_bit_set (b : Byte) :
    (byte (b.val ||| 0x80)).val = b.val ||| 0x80 ∧ 0x80 ≤ (byte (b.val ||| 0x80)).val
      ∧ (byte (b.val ||| 0x80)).val % 0x80 = b.val % 0x80 := by
  revert b
  decide

theorem termString_eq (bs : List Byte) (hne : bs ≠ []) :
    termString bs = bs.dropLast ++ [byte ((bs.getLast hne).val ||| 0x80)] := by
  induction bs with
  | nil => exact absurd rfl hne
  | cons b rest ih =>
    cases rest with
    | nil => rfl
    | cons c rest =>
      have h := ih (List.cons_ne_nil c rest)
      simp only [termString, List.dropLast_cons₂, List.getLast_cons_cons, List.cons_append]
      rw [h]

/-- C7: for every non-empty string argument `s` of `.DS` the bytes emitted are
`len(s)` bytes: the bytes of `s` unchanged except the last, which is the last
byte of `s` OR `0x80`, so that its high bit is set and its low seven bits are
those of the last byte of `s`. An empty string argument emits nothing, and a
numeric argument with value `v` emits the one byte `v mod 256`. -/
theorem ds_high_bit_terminated (syms : List Char → Option Int) (s : List Char) (hs : s ≠ []) :
    dsArg syms (.str s)
        = (bytesOf s).dropLast ++ [byte ((byte (s.getLast hs).toNat).val ||| 0x80)]
      ∧ (dsArg syms (.str s)).length = s.length
      ∧ (dsArg syms (.str s)).dropLast = (bytesOf s).dropLast
      ∧ (byte ((byte (s.getLast hs).toNat).val ||| 0x80)).val
          = (byte (s.getLast hs).toNat).val ||| 0x80
      ∧ 0x80 ≤ (byte ((byte (s.getLast hs).toNat).val ||| 0x80)).val
      ∧ (byte ((byte (s.getLast hs).toNat).val ||| 0x80)).val % 0x80
          = (byte (s.getLast hs).toNat).val % 0x80
      ∧ dsArg syms (.str []) = []
      ∧ (∀ (e : Expr) (v : Int), eval syms e = some v →
          dsArg syms (.expr e) = [byte (v % 256).toNat]) := by
  have hne : bytesOf s ≠ [] := by
    unfold bytesOf
    simpa using hs
  have hlast : (bytesOf s).getLast hne = byte (s.getLast hs).toNat := by
    unfold bytesOf
    rw [List.getLast_map]
  have hmain : dsArg syms (.str s)
      = (bytesOf s).dropLast ++ [byte ((byte (s.getLast hs).toNat).val ||| 0x80)] := by
    simp only [dsArg]
    rw [termString_eq _ hne, hlast]
  have hb := high_bit_set (byte (s.getLast hs).toNat)
  refine ⟨hmain, ?_, ?_, hb.1, hb.2.1, hb.2.2, rfl, ?_⟩
  · rw [hmain]
    have hl : (bytesOf s).length = s.length := by simp [bytesOf]
    have hpos : 0 < s.length := List.length_pos.mpr hs
    simp [hl]
    omega
  · rw [hmain]
    simp
  · intro e v hv
    simp [dsArg, hv, emitLE_one, lowByte]

theorem ds_high_bit_terminated_witness :
    dsArg (fun _ => none) (.str ['A', 'A', 'A']) = [0x41, 0x41, 0xC1]
      ∧ dsArg (fun _ => none) (.str ['a']) = [0xE1]
      ∧ dsArg (fun _ => none) (.expr (.Integer 0)) = [0x00] :=
  ⟨(ds_high_bit_terminated (fun _ => none) ['A', 'A', 'A'] (by decide)).1.trans (by decide),
   (ds_high_bit_terminated (fun _ => none) ['a'] (by decide)).1.trans (by decide),
   ((ds_high_bit_terminated (fun _ => none) ['a'] (by decide)).2.2.2.2.2.2.2
      (.Integer 0) 0 (by decide)).trans (by decide)⟩

/-! ## `splitArgs` against the maximal runs -/

theorem contains_blank (c : Char) : [' ', '\t'].contains c = isBlank c := by
  unfold isBlank
  show List.elem c [' ', '\t'] = _
  simp only [List.elem]
  cases (c == ' ') <;> cases (c == '\t') <;> rfl

theorem IndexAny_cases (s : List Char) :
    (IndexAny s [' ', '\t'] = -1 ∧ ∀ c ∈ s, isBlank c = false)
    ∨ ∃ (pre : List Char) (c : Char) (rest : List Char), s = pre ++ c :: rest
        ∧ (∀ x ∈ pre, isBlank x = false) ∧ isBlank c = true
        ∧ IndexAny s [' ', '\t'] = (pre.length : Int) := by
  induction s with
  | nil =>
    left
    exact ⟨rfl, fun c hc => by cases hc⟩
  | cons d ds ih =>
    unfold IndexAny
    rw [contains_blank]
    by_cases hd : isBlank d = true
    · right
      refine ⟨[], d, ds, rfl, (fun x hx => by cases hx), hd, ?_⟩
      rw [if_pos hd]
      rfl
    · have hdf : isBlank d = false := by simpa using hd
      rw [if_neg hd]
      rcases ih with ⟨h1, h2⟩ | ⟨pre, c, rest, hs, hpre, hc, hidx⟩
      · left
        refine ⟨by rw [if_pos h1], ?_⟩
        intro c hc
        rcases List.mem_cons.mp hc with rfl | hc
        · exact hdf
        · exact h2 c hc
      · right
        refine ⟨d :: pre, c, rest, by rw [hs]; rfl, ?_, hc, ?_⟩
        · intro x hx
          rcases List.mem_cons.mp hx with rfl | hx
          · exact hdf
          · exact hpre x hx
        · rw [hidx, if_neg (by omega)]
          simp

theorem skipBlanks_eq (l : List Char) :
    ∀ i, skipBlanks l i = i + (l.takeWhile isBlank).length := by
  induction l with
  | nil =>
    intro i
    rfl
  | cons c rest ih =>
    intro i
    unfold skipBlanks
    by_cases hc : isBlank c = true
    · have hc2 : (c == ' ' || c == '\t') = true := hc
      rw [if_pos hc2, ih]
      simp only [List.takeWhile_cons, hc, if_true, List.length_cons]
      omega
    · have hc2 : ¬ (c == ' ' || c == '\t') = true := hc
      have hcf : isBlank c = false := by simpa using hc
      rw [if_neg hc2]
      simp [List.takeWhile_cons, hcf]

theorem drop_takeWhile_length (l : List Char) :
    l.drop (l.takeWhile isBlank).length = l.dropWhile isBlank := by
  induction l with
  | nil => rfl
  | cons c rest ih =>
    cases hc : isBlank c
    · simp [List.takeWhile_cons, List.dropWhile_cons, hc]
    · simpa [List.takeWhile_cons, List.dropWhile_cons, hc] using ih

theorem fields_nil : fields [] = [] := by
  simp [fields]

theorem fields_cons_blank (c : Char) (cs : List Char) (hc : isBlank c = true) :
    fields (c :: cs) = fields cs := by
  simp [fields, List.splitOnP_cons, hc]

theorem fields_dropWhile (l : List Char) : fields (l.dropWhile isBlank) = fields l := by
  induction l with
  | nil => rfl
  | cons c rest ih =>
    cases hc : isBlank c
    · simp [List.dropWhile_cons, hc]
    · simp only [List.dropWhile_cons, hc, if_true]
      rw [ih, fields_cons_blank c rest hc]

theorem fields_of_no_blank (l : List Char) (h : ∀ x ∈ l, isBlank x = false) (hne : l ≠ []) :
    fields l = [l] := by
  unfold fields
  rw [List.splitOnP_eq_single isBlank l (fun x hx => by simp [h x hx])]
  simp [hne]

theorem fields_first (pre : List Char) (c : Char) (rest : List Char)
    (h : ∀ x ∈ pre, isBlank x = false) (hc : isBlank c = true) :
    fields (pre ++ c :: rest) = (if pre.length > 0 then [pre] else []) ++ fields rest := by
  unfold fields
  rw [List.splitOnP_first isBlank pre (fun x hx => by simp [h x hx]) c hc rest]
  cases pre with
  | nil => simp
  | cons x xs => simp

theorem loop_eq (fuel : Nat) :
    ∀ (args : List Char) (ss : List (List Char)), args.length < fuel →
      splitArgs.loop fuel args ss = some (ss ++ fields args) := by
  induction fuel with
  | zero =>
    intro args ss h
    omega
  | succ fuel ih =>
    intro args ss h
    unfold splitArgs.loop
    by_cases hlen : args.length > 0
    · rw [if_pos hlen]
      have hne : args ≠ [] := List.length_pos.mp hlen
      rcases IndexAny_cases args with ⟨hidx, hno⟩ | ⟨pre, c, rest, hs, hpre, hc, hidx⟩
      · simp only [hidx, if_true, if_pos hlen]
        rw [fields_of_no_blank args hno hne]
      · have hi : ¬ ((pre.length : Int) = -1) := by omega
        simp only [hidx, if_neg hi, Int.toNat_ofNat]
        have htake : args.take pre.length = pre := by
          rw [hs]
          simp
        have hdrop : args.drop pre.length = c :: rest := by
          rw [hs]
          simp
        rw [htake, hdrop, skipBlanks_eq]
        have hdrop2 : args.drop (pre.length + ((c :: rest).takeWhile isBlank).length)
            = (c :: rest).dropWhile isBlank := by
          rw [← List.drop_drop, hdrop, drop_takeWhile_length]
        rw [hdrop2]
        have hshort : ((c :: rest).dropWhile isBlank).length < fuel := by
          simp only [List.dropWhile_cons, hc, if_true]
          have h1 : (rest.dropWhile isBlank).length ≤ rest.length :=
            (List.dropWhile_sublist _).length_le
          have h2 : args.length = pre.length + (rest.length + 1) := by
            rw [hs]
            simp
          omega
        rw [ih _ _ hshort, fields_dropWhile, fields_cons_blank c rest hc, hs,
          fields_first pre c rest hpre hc]
        by_cases hp : pre.length > 0
        · have hp2 : (pre.length : Int) > 0 := by omega
          rw [if_pos hp, if_pos hp2]
          simp
        · have hp2 : ¬ (pre.length : Int) > 0 := by omega
          rw [if_neg hp, if_neg hp2]
          simp
    · rw [if_neg hlen]
      have : args = [] := by
        cases args with
        | nil => rfl
        | cons x xs => simp at hlen
      rw [this, fields_nil]
      simp

theorem splitOnP_no_blank (xs : List Char) :
    ∀ r ∈ xs.splitOnP isBlank, ∀ x ∈ r, isBlank x = false := by
  induction xs with
  | nil =>
    intro r hr x hx
    simp at hr
    subst hr
    cases hx
  | cons c cs ih =>
    intro r hr x hx
    rw [List.splitOnP_cons] at hr
    cases hc : isBlank c
    · rw [hc] at hr
      simp only [Bool.false_eq_true, if_false] at hr
      cases hsp : cs.splitOnP isBlank with
      | nil => exact absurd hsp (List.splitOnP_ne_nil _ _)
      | cons hd tl =>
        rw [hsp] at hr ih
        simp only [List.modifyHead_cons, List.mem_cons] at hr
        rcases hr with rfl | hr
        · rcases List.mem_cons.mp hx with rfl | hx
          · exact hc
          · exact ih hd (List.mem_cons_self _ _) x hx
        · exact ih r (List.mem_cons_of_mem _ hr) x hx
    · rw [hc] at hr
      simp only [if_true, List.mem_cons] at hr
      rcases hr with rfl | hr
      · cases hx
      · exact ih r hr x hx

theorem splitOnP_flatten (xs : List Char) :
    (xs.splitOnP isBlank).flatten = xs.filter fun c => !isBlank c := by
  induction xs with
  | nil => rfl
  | cons c cs ih =>
    rw [List.splitOnP_cons]
    cases hc : isBlank c
    · simp only [Bool.false_eq_true, if_false]
      cases hsp : cs.splitOnP isBlank with
      | nil => exact absurd hsp (List.splitOnP_ne_nil _ _)
      | cons hd tl =>
        rw [hsp] at ih
        simp only [List.modifyHead_cons, List.flatten_cons, List.cons_append]
        rw [List.filter_cons, hc]
        simp only [Bool.not_false, if_true]
        rw [← ih]
        rfl
    · simp only [if_true, List.flatten_cons, List.nil_append]
      rw [List.filter_cons, hc, ih]
      simp

theorem flatten_filter_ne_nil (l : List (List Char)) :
    (l.filter fun r => r ≠ []).flatten = l.flatten := by
  induction l with
  | nil => rfl
  | cons r rs ih =>
    rw [List.filter_cons]
    by_cases hr : r = []
    · subst hr
      simpa using ih
    · simp only [hr, ne_eq, not_false_eq_true, decide_True, if_true, List.flatten_cons]
      rw [← ih]

/-- C11: for every string `a`, `splitArgs(a)` leaves its loop (within
`len(a) + 1` passes, and with the same result for any larger number of passes)
and returns the maximal runs of bytes of `a` that are neither space nor tab, in
order: no element is empty, none contains a space or a tab, and the elements
concatenated are `a` with every space and tab removed. -/
theorem splitArgs_fields (a : List Char) :
    splitArgs a = some (fields a)
      ∧ (∀ fuel, a.length < fuel → splitArgs.loop fuel a [] = some (fields a))
      ∧ (∀ r ∈ fields a, r ≠ [])
      ∧ (∀ r ∈ fields a, ∀ c ∈ r, c ≠ ' ' ∧ c ≠ '\t')
      ∧ (fields a).flatten = a.filter (fun c => c != ' ' && c != '\t') := by
  have hloop : ∀ fuel, a.length < fuel → splitArgs.loop fuel a [] = some (fields a) := by
    intro fuel h
    rw [loop_eq fuel a [] h]
    rfl
  refine ⟨hloop _ (Nat.lt_succ_self _), hloop, ?_, ?_, ?_⟩
  · intro r hr
    unfold fields at hr
    simpa using (List.mem_filter.mp hr).2
  · intro r hr c hc
    unfold fields at hr
    have hb := splitOnP_no_blank a r (List.mem_filter.mp hr).1 c hc
    unfold isBlank at hb
    simpa using hb
  · unfold fields
    rw [flatten_filter_ne_nil, splitOnP_flatten]
    congr 1
    funext c
    unfold isBlank
    simp only [bne, Bool.not_or]

theorem splitArgs_fields_witness :
    splitArgs "  load  prog.bin\t$0600 ".toList
        = some ["load".toList, "prog.bin".toList, "$0600".toList]
      ∧ splitArgs " \t ".toList = some []
      ∧ splitArgs "".toList = some [] :=
  ⟨(splitArgs_fields "  load  prog.bin\t$0600 ".toList).1.trans (by decide),
   (splitArgs_fields " \t ".toList).1.trans (by decide),
   (splitArgs_fields "".toList).1.trans (by decide)⟩

end Go6502
